import Mathlib

/-!
Verification of the seri-sei formatter.

The JavaScript sources are shallowly embedded here.  JS strings are modelled
as `List Char` (`Str`); JS numbers used as counters are modelled as `Nat` or
`Int` (for depth counters that may go negative); JS regular expressions are
replaced by hand-rolled matching functions that reproduce the regex semantics
on the relevant patterns (greedy / lazy repetition, ordered alternation,
anchoring).  All definitions are executable and structural, so concrete runs
reduce by `decide` / `rfl`.
-/

set_option maxRecDepth 10000

abbrev Str := List Char

/-! ## Generic string helpers (JS primitive semantics) -/

/-- The no-break space, U+00A0 (a JS whitespace character). -/
def nbspChar : Char := Char.ofNat 160

/-- The byte-order mark, U+FEFF (a JS whitespace character). -/
def bomChar : Char := Char.ofNat 65279

/-- The JS `\s` character class (ASCII part plus the common Unicode members). -/
def jsWsChar (c : Char) : Bool :=
  c = ' ' || c = '\t' || c = '\n' || c = '\r' || c = '\x0b' || c = '\x0c' ||
  c = nbspChar || c = bomChar

/-- `String.prototype.trim`: strip `\s` characters from both ends. -/
def jsTrim (s : Str) : Str :=
  ((s.dropWhile (fun c => jsWsChar c)).reverse.dropWhile (fun c => jsWsChar c)).reverse

/-- Boolean prefix test on character lists. -/
def leadsWith : Str → Str → Bool
  | [], _ => true
  | _ :: _, [] => false
  | p :: ps, c :: cs => p = c && leadsWith ps cs

/-- `String.prototype.includes`: substring containment. -/
def listIncludes (hay : Str) (needle : Str) : Bool :=
  match hay with
  | [] => needle.isEmpty
  | _ :: t => leadsWith needle hay || listIncludes t needle

/-- `padString` repeated and truncated to length `n` (as used by `padEnd`). -/
def repeatToLen (n : Nat) (p : Str) : Str :=
  ((List.replicate n p).flatten).take n

/-- `String.prototype.padEnd(w, p)`; an empty pad string pads nothing. -/
def jsPadEnd (s : Str) (w : Nat) (p : Str) : Str :=
  if p = [] then s
  else if w ≤ s.length then s
  else s ++ repeatToLen (w - s.length) p

/-- `String.prototype.padEnd(w)` with the default single-space pad. -/
def padSpaces (s : Str) (w : Nat) : Str :=
  s ++ List.replicate (w - s.length) ' '

/-! ## Import formatter (src/lib/import-formatter.js) -/

structure ImportGroup where
  name : Str
  matchers : List Str
deriving DecidableEq

structure ImportConfig where
  TO_COLUMN_WIDTH : Nat
  HEADER_CHAR : Str
  groups : List ImportGroup

/-- `createHeader` (import-formatter.js 8-12). -/
def createHeader (text : Str) (headerChar : Str) (columnWidth : Nat) : Str :=
  let trimmedText := jsTrim text
  if columnWidth - 1 ≤ trimmedText.length then trimmedText
  else jsPadEnd (trimmedText ++ [' ']) columnWidth headerChar

/-- `group.name.includes("OTHER") || group.matchers.length === 0`
(import-formatter.js line 24). -/
def isOtherGroupB (g : ImportGroup) : Bool :=
  listIncludes g.name ("OTHER".toList) || g.matchers.length = 0

/-- The per-group matcher closure built at import-formatter.js line 25:
a catch-all group matches everything, otherwise some matcher string must be
a substring of the (normalized) line. -/
def groupMatcherB (g : ImportGroup) (line : Str) : Bool :=
  if isOtherGroupB g then true
  else g.matchers.any (fun pkg => listIncludes line pkg)

/-- `imp.replace(/\n\s*/g, " ")` (import-formatter.js line 37): every newline
together with the whitespace run following it collapses to a single space.
The Boolean flag is the state "currently consuming the `\s*` of a match". -/
def collapseImport : Bool → Str → Str
  | _, [] => []
  | skip, c :: rest =>
    if skip && jsWsChar c then collapseImport true rest
    else if c = '\n' then ' ' :: collapseImport true rest
    else c :: collapseImport false rest

/-- One entry of the `groups` working array (header, group definition, and the
`matches` accumulator). -/
structure GroupState where
  header : Str
  group : ImportGroup
  matchList : List Str

/-- The `groupDefinitions.map(...)` step (import-formatter.js 23-31). -/
def initGroups (config : ImportConfig) : List GroupState :=
  config.groups.map (fun g =>
    ⟨createHeader g.name config.HEADER_CHAR config.TO_COLUMN_WIDTH, g, []⟩)

/-- The inner `for (const group of groups)` loop with `break`
(import-formatter.js 36-43): append `imp` to the first group whose matcher
accepts the normalized line; the Boolean reports whether any group matched. -/
def pushFirstMatch (fullImport : Str) (imp : Str) :
    List GroupState → List GroupState × Bool
  | [] => ([], false)
  | g :: gs =>
    if groupMatcherB g.group fullImport then
      ({ g with matchList := g.matchList ++ [imp] } :: gs, true)
    else
      let r := pushFirstMatch fullImport imp gs
      (g :: r.1, r.2)

/-- The outer `for (const imp of importStatements)` loop with the
`processedImports` seen-set (import-formatter.js 33-44). -/
def processImports : List GroupState → List Str → List Str → List GroupState
  | gs, _, [] => gs
  | gs, seen, imp :: rest =>
    if imp ∈ seen then processImports gs seen rest
    else
      let r := pushFirstMatch (collapseImport false imp) imp gs
      processImports r.1 (if r.2 then imp :: seen else seen) rest

/-- Lexicographic comparison of strings by character code, the order used by
`Array.prototype.sort()` on strings. -/
def lexLe : Str → Str → Bool
  | [], _ => true
  | _ :: _, [] => false
  | a :: as, b :: bs => if a = b then lexLe as bs else decide (a < b)

def insertLe (x : Str) : List Str → List Str
  | [] => [x]
  | y :: ys => if lexLe x y then x :: y :: ys else y :: insertLe x ys

/-- `matches.sort()`: sort strings lexicographically (stable; equal keys are
identical strings, so insertion sort realizes the JS result). -/
def jsSort : List Str → List Str
  | [] => []
  | x :: xs => insertLe x (jsSort xs)

/-- The body of the result-building loop (import-formatter.js 47-53). -/
def appendGroupLines (acc : List Str) (g : GroupState) : List Str :=
  if g.matchList.length ≠ 0 then acc ++ [g.header] ++ jsSort g.matchList ++ [[]]
  else acc

/-- Drop a trailing empty line (import-formatter.js 54-56). -/
def popTrailingBlank (r : List Str) : List Str :=
  if r.getLast? = some [] then r.dropLast else r

/-- The fully processed group states for a run of `groupAndFormatImports`. -/
def assignedGroups (importStatements : List Str) (config : ImportConfig) :
    List GroupState :=
  processImports (initGroups config) [] importStatements

/-- `groupAndFormatImports` (import-formatter.js 20-58). -/
def groupAndFormatImports (importStatements : List Str) (config : ImportConfig) :
    List Str :=
  popTrailingBlank
    ((assignedGroups importStatements config).foldl appendGroupLines [])

/-! ## Derived notions used in the claim statements -/

/-- Index of the first list element satisfying `p`. -/
def firstIdxB {α : Type} (p : α → Bool) : List α → Option Nat
  | [] => none
  | x :: xs => if p x then some 0 else (firstIdxB p xs).map (· + 1)

/-- Index of the first configured group whose predicate matches the line. -/
def firstMatchIdx (groups : List ImportGroup) (line : Str) : Option Nat :=
  firstIdxB (fun g => groupMatcherB g line) groups

def dummyGroup : ImportGroup := ⟨[], []⟩

/-- The `matches` list of the `i`-th group state (empty when out of range). -/
def matchesAt (gs : List GroupState) (i : Nat) : List Str :=
  (gs[i]?.map GroupState.matchList).getD []

/-- The filtered/flattened form of the result-building loop. -/
def groupBlocks (gs : List GroupState) : List Str :=
  (gs.filter (fun g => g.matchList.length != 0)).flatMap
    (fun g => g.header :: (jsSort g.matchList ++ [[]]))

/-! ## Concrete inputs for counterexamples and witnesses -/

/-- A one-group catch-all configuration. -/
def cfgOther : ImportConfig :=
  ⟨8, "=".toList, [⟨"// OTHER ".toList, []⟩]⟩

/-- A two-group configuration: EXTERNAL matches the quoted token `"react"`,
OTHER is the catch-all. -/
def cfgReact : ImportConfig :=
  ⟨30, "=".toList,
    [⟨"// EXTERNAL ".toList, ["\"react\"".toList]⟩,
     ⟨"// OTHER ".toList, []⟩]⟩

def fictoanImport : Str := "import React from \"fictoan-react\";".toList

def reactImport : Str := "import React from \"react\";".toList

/-! ## Indent style detector (src/lib/indent.js) -/

/-- `code.split("\n")` (preserving empty segments). -/
def splitLines : Str → List Str
  | [] => [[]]
  | c :: rest =>
    if c = '\n' then [] :: splitLines rest
    else
      match splitLines rest with
      | [] => [[c]]
      | l :: ls => (c :: l) :: ls

structure IndentStyle where
  type : String
  size : Nat
deriving DecidableEq

/-- The counters accumulated by the line loop of `detectIndentStyle`. -/
structure IndentScan where
  tabCount : Nat
  spaceCount : Nat
  spaceSizes : List Nat
deriving DecidableEq

/-- The body of the `for (const line of lines)` loop (indent.js 12-28). -/
def scanLine (acc : IndentScan) (line : Str) : IndentScan :=
  if jsTrim line = [] then acc
  else
    let indent := line.takeWhile (fun c => jsWsChar c)
    if indent = [] then acc
    else if indent.contains '\t' then { acc with tabCount := acc.tabCount + 1 }
    else
      let spaceSize := indent.length
      if 0 < spaceSize ∧ spaceSize ≤ 8 then
        { acc with spaceCount := acc.spaceCount + 1,
                   spaceSizes := acc.spaceSizes ++ [spaceSize] }
      else { acc with spaceCount := acc.spaceCount + 1 }

/-- `(a, b) => b === 0 ? a : gcd(b, a % b)` (indent.js line 42), with fuel. -/
def jsGcdF : Nat → Nat → Nat → Nat
  | 0, a, _ => a
  | fuel + 1, a, b => if b = 0 then a else jsGcdF fuel b (a % b)

def jsGcd (a b : Nat) : Nat := jsGcdF (b + 1) a b

/-- The gcd-accumulation loop with the early exit at 1 (indent.js 43-50). -/
def gcdLoop : Nat → List Nat → Nat
  | acc, [] => acc
  | acc, s :: rest =>
    let acc2 := jsGcd acc s
    if acc2 = 1 then acc2 else gcdLoop acc2 rest

/-- `Math.min(...sizes)` on a nonempty list. -/
def jsMinList : List Nat → Nat
  | [] => 0
  | x :: xs => xs.foldl Nat.min x

def indentScanOf (code : Str) : IndentScan :=
  (splitLines code).foldl scanLine ⟨0, 0, []⟩

def tabLineCount (code : Str) : Nat := (indentScanOf code).tabCount

def spaceLineCount (code : Str) : Nat := (indentScanOf code).spaceCount

def observedSpaceSizes (code : Str) : List Nat := (indentScanOf code).spaceSizes

/-- `detectIndentStyle` (src/lib/indent.js 6-63). -/
def detectIndentStyle (code : Str) : IndentStyle :=
  let acc := indentScanOf code
  if acc.spaceCount < acc.tabCount then ⟨"tabs", 1⟩
  else
    match acc.spaceSizes with
    | [] => ⟨"spaces", 4⟩
    | s0 :: rest =>
      let g := gcdLoop s0 rest
      let g2 := if g = 1 then jsMinList (s0 :: rest) else g
      let g3 := if g2 = 2 ∨ g2 = 3 ∨ g2 = 4 ∨ g2 = 8 then g2 else 4
      ⟨"spaces", g3⟩

/-- The indentation size exactly as the specification words it: the GCD of all
observed space-indentation lengths (those at most 8), replaced by the minimum
observed length when that GCD is 1, and replaced by 4 when the result is not
one of 2, 3, 4, 8 (also 4 when no sizes were observed). -/
def specIndentSize (sizes : List Nat) : Nat :=
  match sizes with
  | [] => 4
  | s0 :: rest =>
    let g := rest.foldl Nat.gcd s0
    let g2 := if g = 1 then jsMinList (s0 :: rest) else g
    if g2 = 2 ∨ g2 = 3 ∨ g2 = 4 ∨ g2 = 8 then g2 else 4

/-! ## Block content formatter: string utilities -/

/-- The JS `\w` class: ASCII letters, digits, underscore. -/
def jsWordChar (c : Char) : Bool :=
  c.isAlpha || c.isDigit || c = '_'

/-- The `[\w$]` class used for property keys. -/
def isWordDollar (c : Char) : Bool :=
  jsWordChar c || c = '$'

/-- The single-quote character (written by code point). -/
def sQuote : Char := Char.ofNat 39

def countChar (s : Str) (c : Char) : Nat :=
  (s.filter (fun x => x = c)).length

def endsWithChar (s : Str) (c : Char) : Bool :=
  s.getLast? = some c

def getLastD (l : List Str) : Str := l.getLast?.getD []

def idxOfAux (c : Char) : Str → Nat → Option Nat
  | [], _ => none
  | x :: rest, i => if x = c then some i else idxOfAux c rest (i + 1)

/-- `String.prototype.indexOf` for a single character. -/
def idxOf (s : Str) (c : Char) : Option Nat := idxOfAux c s 0

def lastIdxOfAux (c : Char) : Str → Nat → Option Nat → Option Nat
  | [], _, best => best
  | x :: rest, i, best =>
    lastIdxOfAux c rest (i + 1) (if x = c then some i else best)

/-- `String.prototype.lastIndexOf` for a single character. -/
def lastIdxOf (s : Str) (c : Char) : Option Nat := lastIdxOfAux c s 0 none

/-- `String.prototype.substring(a, b)` (swaps its arguments when `a > b`). -/
def jsSubstring (s : Str) (a b : Nat) : Str :=
  (s.take (Nat.max a b)).drop (Nat.min a b)

/-! ## Block content formatter: regex replacements

Each function reproduces the behaviour (including greedy/lazy repetition and
ordered alternation with backtracking) of one concrete regular expression of
the source, on all inputs. -/

/-- Match `(\s*\?)?\s*:` at the start of `s`; `some b` reports whether the
optional `?` group took part in the match. -/
def optColonTail (s : Str) : Option Bool :=
  match s.dropWhile (fun c => jsWsChar c) with
  | '?' :: t2 =>
    (match t2.dropWhile (fun c => jsWsChar c) with
     | ':' :: _ => some true
     | _ => none)
  | ':' :: _ => some false
  | _ => none

/-- The `\[.+?\]` alternative (lazy body, at least one character, `.` does not
match a newline) followed by `(\s*\?)?\s*:`; `content` is the body consumed
so far while backtracking rightwards over candidate `]` positions. -/
def bracketAlt : Str → Str → Option (Str × Bool)
  | _, [] => none
  | content, c :: rest =>
    if c = '\n' then none
    else if c = ']' ∧ content ≠ [] then
      match optColonTail rest with
      | some b => some ('[' :: (content ++ [']']), b)
      | none => bracketAlt (content ++ [c]) rest
    else bracketAlt (content ++ [c]) rest

/-- The alignment pattern `^(\[.+?\]|[\w$]+)(\s*\?)?\s*:` of
interface-formatter.js line 306: the captured key and whether the `?` group
matched. -/
def alignMatch (s : Str) : Option (Str × Bool) :=
  match s with
  | '[' :: rest => bracketAlt [] rest
  | _ =>
    let w := s.takeWhile (fun c => isWordDollar c)
    if w = [] then none
    else
      match optColonTail (s.drop w.length) with
      | some b => some (w, b)
      | none => none

/-- The optional generics suffix `(?:<[^>]+>)?`: the generic text (with its
angle brackets) and the remainder when present. -/
def genericSuffix (s : Str) : Option (Str × Str) :=
  match s with
  | '<' :: rest =>
    let inner := rest.takeWhile (fun c => c ≠ '>')
    if inner = [] then none
    else
      match rest.drop inner.length with
      | '>' :: rest2 => some ('<' :: (inner ++ ['>']), rest2)
      | _ => none
  | _ => none

/-- `\s*(.*)$` where `.` does not match a newline: greedy whitespace must
absorb everything up to and including the last newline of the remainder. -/
def wsDotStarEnd (v : Str) : Option Str :=
  let t := v.dropWhile (fun c => jsWsChar c)
  if t.contains '\n' then none else some t

/-- `\s*(.+)$` where `.+` needs at least one non-newline-crossing character;
when everything is whitespace the greedy `\s*` gives one character back. -/
def dotPlusEnd (u : Str) : Option Str :=
  let w := u.takeWhile (fun c => jsWsChar c)
  let t := u.drop w.length
  if t = [] then
    match w.getLast? with
    | some c => if c = '\n' then none else some [c]
    | none => none
  else if t.contains '\n' then none
  else some t

/-- The property pattern `^([\w$]+(?:<[^>]+>)?)\s*(\?)?\s*:\s*(.*)$` of
interface-formatter.js line 362: key (with generics), optional flag, value. -/
def propMatch (s : Str) : Option (Str × Bool × Str) :=
  let w := s.takeWhile (fun c => isWordDollar c)
  if w = [] then none
  else
    let rest := s.drop w.length
    let kr : Str × Str :=
      match genericSuffix rest with
      | some (gen, r) => (w ++ gen, r)
      | none => (w, rest)
    let t := kr.2.dropWhile (fun c => jsWsChar c)
    let ot : Bool × Str :=
      match t with
      | '?' :: tt => (true, tt)
      | _ => (false, t)
    match ot.2.dropWhile (fun c => jsWsChar c) with
    | ':' :: v =>
      (match wsDotStarEnd v with
       | some value => some (kr.1, ot.1, value)
       | none => none)
    | _ => none

/-- The method head pattern `^([\w$]+(?:<[^>]+>)?)\s*\(` of
interface-formatter.js line 334: the method name and the length of the whole
match (whose last character is the opening parenthesis). -/
def methodHeadMatch (s : Str) : Option (Str × Nat) :=
  let w := s.takeWhile (fun c => isWordDollar c)
  if w = [] then none
  else
    let rest := s.drop w.length
    let nr : Str × Str :=
      match genericSuffix rest with
      | some (gen, r) => (w ++ gen, r)
      | none => (w, rest)
    let ws2 := nr.2.takeWhile (fun c => jsWsChar c)
    match nr.2.drop ws2.length with
    | '(' :: _ => some (nr.1, nr.1.length + ws2.length + 1)
    | _ => none

/-- The closing-parenthesis scan of interface-formatter.js 338-350: running
depth over the suffix, reporting the index where it returns to zero. -/
def closingParenScan : Str → Int → Nat → Option Nat
  | [], _, _ => none
  | c :: rest, depth, i =>
    if c = '(' then closingParenScan rest (depth + 1) (i + 1)
    else if c = ')' then
      (if depth - 1 = 0 then some i else closingParenScan rest (depth - 1) (i + 1))
    else closingParenScan rest depth (i + 1)

/-- `rest.match(/^\s*:\s*(.*)$/)` (interface-formatter.js line 355). -/
def typeMatch (s : Str) : Option Str :=
  match s.dropWhile (fun c => jsWsChar c) with
  | ':' :: v => wsDotStarEnd v
  | _ => none

/-- `\s*:\s*(.+)$` (the tail of the signature pattern). -/
def colonPlusEnd (v : Str) : Option Str :=
  match v.dropWhile (fun c => jsWsChar c) with
  | ':' :: u => dotPlusEnd u
  | _ => none

/-- The unanchored search `/\(([^)]*)\)\s*:\s*(.+)$/` of import-formatter.js
line 277: at each `(` from the left, `[^)]*` runs exactly to the first `)`
after it, and the rest must match `\s*:\s*(.+)$`; on failure the search
resumes at the next position. -/
def signatureSearch : Str → Option (Str × Str)
  | [] => none
  | '(' :: rest =>
    let inner := rest.takeWhile (fun c => c ≠ ')')
    (match rest.drop inner.length with
     | ')' :: after =>
       (match colonPlusEnd after with
        | some ret => some (inner, ret)
        | none => signatureSearch rest)
     | _ => none)
  | _ :: rest => signatureSearch rest

/-- `.replace(/;$/, "")`. -/
def dropTrailingSemi (s : Str) : Str :=
  match s.getLast? with
  | some ';' => s.dropLast
  | _ => s

/-- `alignedFirstLine.match(/^(\s*\w+(?:<[^>]+>)?)\s*\(/)`
(import-formatter.js line 264): the first capture group. -/
def fmsNameMatch (s : Str) : Option Str :=
  let ws := s.takeWhile (fun c => jsWsChar c)
  let rest := s.drop ws.length
  let w := rest.takeWhile (fun c => jsWordChar c)
  if w = [] then none
  else
    let rest2 := rest.drop w.length
    let gr : Str × Str :=
      match genericSuffix rest2 with
      | some (gen, r) => (ws ++ w ++ gen, r)
      | none => (ws ++ w, rest2)
    match gr.2.dropWhile (fun c => jsWsChar c) with
    | '(' :: _ => some gr.1
    | _ => none

/-- The pattern `^(\w+)(\s*\?)?\s*:\s*(.+)$` of interface-formatter.js
line 536 (single-line-block property parsing). -/
def slbPropMatch (t : Str) : Option (Str × Bool × Str) :=
  let w := t.takeWhile (fun c => jsWordChar c)
  if w = [] then none
  else
    match (t.drop w.length).dropWhile (fun c => jsWsChar c) with
    | '?' :: t2 =>
      (match t2.dropWhile (fun c => jsWsChar c) with
       | ':' :: v => (dotPlusEnd v).map (fun val => (w, true, val))
       | _ => none)
    | ':' :: v => (dotPlusEnd v).map (fun val => (w, false, val))
    | _ => none

/-! ## Method formatter (import-formatter.js 245-390, i.e. method-formatter) -/

structure FmtConfig where
  EXPAND_METHODS : Bool
  INDENT_TYPE : String
  INDENT_SIZE : Nat
deriving DecidableEq

/-- `getIndentString` (indent.js 70-75). -/
def getIndentString (config : FmtConfig) : Str :=
  if config.INDENT_TYPE = "tabs" then ['\t']
  else List.replicate config.INDENT_SIZE ' '

structure Param where
  name : Str
  optional : Bool
  type : Str
deriving DecidableEq

/-- The depth-0-colon scan of `parseParameter` (import-formatter.js 123-152),
with the string-literal state machine (`prev` is the previous character of
the original string; the initial previous character is modelled as NUL). -/
def parseParamColon : Str → Char → Bool → Char → Int → Nat → Option Nat
  | [], _, _, _, _, _ => none
  | c :: rest, prev, inString, stringChar, depth, i =>
    let st : Bool × Char :=
      if (c = '"' ∨ c = sQuote) ∧ prev ≠ '\\' then
        (if ¬ inString then (true, c)
         else if c = stringChar then (false, stringChar)
         else (inString, stringChar))
      else (inString, stringChar)
    if ¬ st.1 then
      if c = '(' ∨ c = '{' ∨ c = '<' then
        parseParamColon rest c st.1 st.2 (depth + 1) (i + 1)
      else if c = ')' ∨ c = '}' ∨ c = '>' then
        parseParamColon rest c st.1 st.2 (depth - 1) (i + 1)
      else if c = ':' ∧ depth = 0 then some i
      else parseParamColon rest c st.1 st.2 depth (i + 1)
    else parseParamColon rest c st.1 st.2 depth (i + 1)

/-- `parseParameter` (import-formatter.js 123-166). -/
def parseParameter (param : Str) : Param :=
  match parseParamColon param (Char.ofNat 0) false (Char.ofNat 0) 0 0 with
  | none => ⟨param, false, []⟩
  | some colonIndex =>
    let namePart := jsTrim (param.take colonIndex)
    let typePart := jsTrim (param.drop (colonIndex + 1))
    if endsWithChar namePart '?' then ⟨jsTrim namePart.dropLast, true, typePart⟩
    else ⟨namePart, false, typePart⟩

/-- The comma-splitting scan of `parseParameters` (import-formatter.js
70-116), collecting the trimmed nonempty pieces. -/
def parseParamsScan : Str → Char → Bool → Char → Int → Str → List Str → List Str
  | [], _, _, _, _, cur, acc =>
    if jsTrim cur = [] then acc else acc ++ [jsTrim cur]
  | c :: rest, prev, inString, stringChar, depth, cur, acc =>
    let st : Bool × Char :=
      if (c = '"' ∨ c = sQuote) ∧ prev ≠ '\\' then
        (if ¬ inString then (true, c)
         else if c = stringChar then (false, stringChar)
         else (inString, stringChar))
      else (inString, stringChar)
    if ¬ st.1 then
      let depth2 : Int :=
        if c = '(' ∨ c = '{' ∨ c = '<' then depth + 1
        else if c = ')' ∨ c = '}' ∨ c = '>' then depth - 1
        else depth
      if c = ',' ∧ depth2 = 0 then
        parseParamsScan rest c st.1 st.2 depth2 []
          (if jsTrim cur = [] then acc else acc ++ [jsTrim cur])
      else parseParamsScan rest c st.1 st.2 depth2 (cur ++ [c]) acc
    else parseParamsScan rest c st.1 st.2 depth (cur ++ [c]) acc

/-- `parseParameters` (import-formatter.js 70-116). -/
def parseParameters (parametersStr : Str) : List Param :=
  (parseParamsScan parametersStr (Char.ofNat 0) false (Char.ofNat 0) 0 [] []).map
    parseParameter

/-- `objectContent.split(/[;,]/)`. -/
def splitSemiComma : Str → List Str
  | [] => [[]]
  | c :: rest =>
    if c = ';' ∨ c = ',' then [] :: splitSemiComma rest
    else
      match splitSemiComma rest with
      | [] => [[c]]
      | l :: ls => (c :: l) :: ls

/-- The inline-object property parsing of import-formatter.js 347-355. -/
def parseObjProps : List Str → List (Str × Str)
  | [] => []
  | p :: ps =>
    match idxOf p ':' with
    | some colonIdx =>
      if 0 < colonIdx then
        (jsTrim (p.take colonIdx), jsTrim (p.drop (colonIdx + 1))) :: parseObjProps ps
      else parseObjProps ps
    | none => parseObjProps ps

/-- The aligned rendering of inline-object properties
(import-formatter.js 358-363): a `;` on every line but the last. -/
def renderObjProps (ind : Str) (maxLen : Nat) : List (Str × Str) → List Str
  | [] => []
  | [pr] => [ind ++ padSpaces pr.1 maxLen ++ (" : ".toList) ++ pr.2]
  | pr :: rest =>
    (ind ++ padSpaces pr.1 maxLen ++ (" : ".toList) ++ pr.2 ++ [';']) ::
      renderObjProps ind maxLen rest

/-- One parameter's lines in the `parameters.forEach` loop
(import-formatter.js 310-378). -/
def renderParam (paramIndent : Str) (maxParamLength : Nat) (hasOptional : Bool)
    (config : FmtConfig) (isLast : Bool) (param : Param) : List Str :=
  let line0 := paramIndent ++ padSpaces param.name maxParamLength
  let line := if hasOptional
    then line0 ++ [' '] ++ (if param.optional then ['?'] else [' '])
    else line0
  let comma : Str := if isLast then [] else [',']
  if param.type.contains '{' ∧ param.type.contains '}' then
    match idxOf param.type '{', lastIdxOf param.type '}' with
    | some braceIndex, some afterBraceIndex =>
      let beforeBrace := jsTrim (param.type.take braceIndex)
      let objectContent := jsTrim (jsSubstring param.type (braceIndex + 1) afterBraceIndex)
      let afterObject := jsTrim (param.type.drop (afterBraceIndex + 1))
      if objectContent ≠ [] then
        let headLine := if beforeBrace ≠ []
          then line ++ (" : ".toList) ++ beforeBrace ++ (" \x7b".toList)
          else line ++ (" : \x7b".toList)
        let objPropIndent := paramIndent ++ getIndentString config
        let properties := (splitSemiComma objectContent).filter (fun p => jsTrim p ≠ [])
        let parsedProps := parseObjProps properties
        let maxPropLength := parsedProps.foldl (fun m pr => Nat.max m pr.1.length) 0
        (headLine :: renderObjProps objPropIndent maxPropLength parsedProps) ++
          [paramIndent ++ ['}'] ++ afterObject ++ comma]
      else [line ++ comma]
    | _, _ => [line ++ comma]
  else [line ++ (" : ".toList) ++ param.type ++ comma]

/-- The indexed `parameters.forEach` (the last parameter carries no comma). -/
def renderParams (paramIndent : Str) (maxParamLength : Nat) (hasOptional : Bool)
    (config : FmtConfig) : List Param → List Str
  | [] => []
  | [p] => renderParam paramIndent maxParamLength hasOptional config true p
  | p :: rest =>
    renderParam paramIndent maxParamLength hasOptional config false p ++
      renderParams paramIndent maxParamLength hasOptional config rest

/-- `formatMethodSignature` (import-formatter.js 245-390; the
method-formatter module used by the interface formatter). -/
def formatMethodSignature (methodLines : List Str) (propertyIndent : Str)
    (alignedFirstLine : Str) (config : FmtConfig) : List Str :=
  let shouldExpand := config.EXPAND_METHODS
  match idxOf alignedFirstLine ':' with
  | none =>
    alignedFirstLine ::
      (methodLines.drop 1).map
        (fun l => propertyIndent ++ getIndentString config ++ jsTrim l)
  | some _ =>
    match fmsNameMatch alignedFirstLine with
    | none => [alignedFirstLine]
    | some methodIndentAndName =>
      let fullSignature := jsTrim (methodLines.headD [])
      match signatureSearch fullSignature with
      | none => [alignedFirstLine]
      | some (paramsContent, returnTypeWithSemi) =>
        let returnType := dropTrailingSemi returnTypeWithSemi
        let methodName := jsTrim methodIndentAndName
        let firstOut := propertyIndent ++ methodName ++ (" (".toList)
        let closing := propertyIndent ++ ("): ".toList) ++ returnType ++ [';']
        if jsTrim paramsContent ≠ [] then
          let parameters := parseParameters paramsContent
          if (parameters.length > 0 ∧ shouldExpand = true) ∨ methodLines.length > 1 then
            let paramIndent := propertyIndent ++ getIndentString config
            let maxParamLength := parameters.foldl (fun m p => Nat.max m p.name.length) 0
            let hasOptional := parameters.any (fun p => p.optional)
            (firstOut :: renderParams paramIndent maxParamLength hasOptional config parameters) ++
              [closing]
          else [alignedFirstLine]
        else [firstOut, closing]

/-! ## Block content formatter (interface-formatter.js 184-434) -/

/-- The depth-0 semicolon test of interface-formatter.js 225-234. -/
def hasTopSemi : Str → Int → Bool
  | [], _ => false
  | c :: rest, depth =>
    if c = '{' then hasTopSemi rest (depth + 1)
    else if c = '}' then hasTopSemi rest (depth - 1)
    else if c = ';' ∧ depth = 0 then true
    else hasTopSemi rest depth

/-- The semicolon splitter of interface-formatter.js 240-258 (each part keeps
its terminating semicolon; a trailing fragment is kept when non-blank). -/
def splitTopSemi : Str → Int → Str → List Str → List Str
  | [], _, cur, parts => if jsTrim cur = [] then parts else parts ++ [cur]
  | c :: rest, depth, cur, parts =>
    let cur2 := cur ++ [c]
    if c = '{' then splitTopSemi rest (depth + 1) cur2 parts
    else if c = '}' then splitTopSemi rest (depth - 1) cur2 parts
    else if c = ';' ∧ depth = 0 then splitTopSemi rest depth [] (parts ++ [cur2])
    else splitTopSemi rest depth cur2 parts

/-- The per-line expansion step of interface-formatter.js 210-272. -/
def expandLine (line : Str) : List Str :=
  if jsTrim line = [] then [line]
  else
    let trimmedLine := jsTrim line
    if trimmedLine.contains ';' ∧ ¬ (leadsWith ("//".toList) trimmedLine = true) ∧
        ¬ (leadsWith ("/*".toList) trimmedLine = true) then
      if hasTopSemi trimmedLine 0 then
        let bi := line.takeWhile (fun c => jsWsChar c)
        (splitTopSemi trimmedLine 0 [] []).filterMap (fun part =>
          let pt := jsTrim part
          if pt = [] then none else some (bi ++ pt))
      else [line]
    else [line]

def expandLines (blockContentLines : List Str) : List Str :=
  blockContentLines.flatMap expandLine

/-- The property-delimiting loop of interface-formatter.js 275-297 (running
brace/paren depths, property closed at depth zero on `;`, `}` or `,`). -/
def delimitScan : List Str → List Str → Int → Int → List (List Str) → List (List Str)
  | [], cur, _, _, props => if cur = [] then props else props ++ [cur]
  | line :: rest, cur, braceDepth, parenDepth, props =>
    if jsTrim line = [] ∧ cur = [] then delimitScan rest cur braceDepth parenDepth props
    else
      let cur2 := cur ++ [line]
      let b2 := braceDepth + (countChar line '{' : Int) - (countChar line '}' : Int)
      let p2 := parenDepth + (countChar line '(' : Int) - (countChar line ')' : Int)
      if b2 = 0 ∧ p2 = 0 ∧
          (endsWithChar (jsTrim line) ';' = true ∨ endsWithChar (jsTrim line) '}' = true ∨
            endsWithChar (jsTrim line) ',' = true) then
        delimitScan rest [] b2 p2 (props ++ [cur2])
      else delimitScan rest cur2 b2 p2 props

def delimitProps (expandedLines : List Str) : List (List Str) :=
  delimitScan expandedLines [] 0 0 []

/-- The alignment computation of interface-formatter.js 299-311. -/
def alignScan : List (List Str) → Nat → Bool → Nat × Bool
  | [], mk, ho => (mk, ho)
  | prop :: rest, mk, ho =>
    let firstLine := jsTrim (prop.headD [])
    if leadsWith ("//".toList) firstLine = true ∨ leadsWith ("/*".toList) firstLine = true then
      alignScan rest mk ho
    else
      match alignMatch firstLine with
      | some kb => alignScan rest (Nat.max mk kb.1.length) (ho || kb.2)
      | none => alignScan rest mk ho

/-- The classification of one property's first line
(interface-formatter.js 322-367). -/
inductive PropClass where
  | comment
  | methodP (key : Str) (params : Str) (value : Str)
  | plainP (key : Str) (optional : Bool) (value : Str)
  | unmatched
deriving DecidableEq

def classifyProp (prop : List Str) : PropClass :=
  let t := jsTrim (prop.headD [])
  if leadsWith ("//".toList) t = true ∨ leadsWith ("/*".toList) t = true then .comment
  else
    match methodHeadMatch t with
    | some nm =>
      (match closingParenScan (t.drop (nm.2 - 1)) 0 (nm.2 - 1) with
       | some closingParenIndex =>
         (match typeMatch (t.drop (closingParenIndex + 1)) with
          | some v => .methodP nm.1 (jsSubstring t (nm.2 - 1) (closingParenIndex + 1)) v
          | none => .unmatched)
       | none => .unmatched)
    | none =>
      match propMatch t with
      | some kov => .plainP kov.1 kov.2.1 kov.2.2
      | none => .unmatched

def isMethodProp (prop : List Str) : Bool :=
  match classifyProp prop with
  | .methodP _ _ _ => true
  | _ => false

/-- One property's emitted lines, without the blank separator
(interface-formatter.js 322-430); `recur` is the recursive call used for
nested objects. -/
def renderPropLines (recur : List Str → Str → FmtConfig → List Str)
    (config : FmtConfig) (propertyIndent : Str) (maxKeyLength : Nat)
    (hasOptional : Bool) (prop : List Str) : List Str :=
  match classifyProp prop with
  | .comment => prop.map (fun l => propertyIndent ++ jsTrim l)
  | .unmatched => prop.map (fun l => propertyIndent ++ jsTrim l)
  | .methodP key params value =>
    let paddedKey := padSpaces key maxKeyLength
    let methodWithSpace : Str :=
      match params with
      | '(' :: ps => ' ' :: ('(' :: ps)
      | _ => params
    let alignedFirstLine := propertyIndent ++ paddedKey ++ methodWithSpace ++
      (": ".toList) ++ value
    formatMethodSignature prop propertyIndent alignedFirstLine config
  | .plainP key opt value =>
    let paddedKey := padSpaces key maxKeyLength
    let alignedFirstLine := propertyIndent ++ paddedKey ++
      (if hasOptional then (if opt then (" ?".toList) else ("  ".toList)) else []) ++
      (" : ".toList) ++ value
    if prop.length = 1 then [alignedFirstLine]
    else
      match lastIdxOf value '{' with
      | none => formatMethodSignature prop propertyIndent alignedFirstLine config
      | some _ =>
        let firstLineHeader :=
          match lastIdxOf alignedFirstLine '{' with
          | some k => alignedFirstLine.take (k + 1)
          | none => alignedFirstLine
        let nestedContent := (prop.drop 1).dropLast
        let nested := if nestedContent.length > 0
          then recur nestedContent propertyIndent config
          else []
        (firstLineHeader :: nested) ++ [propertyIndent ++ jsTrim (getLastD prop)]

/-- `blockContentLines.some(line => line.trim().startsWith("|"))`. -/
def isUnionContent (blockContentLines : List Str) : Bool :=
  blockContentLines.any (fun line => leadsWith ("|".toList) (jsTrim line))

/-- The property-rendering loop of interface-formatter.js 317-431, with the
blank separator inserted before a method when output was already produced. -/
def renderFold (recur : List Str → Str → FmtConfig → List Str)
    (config : FmtConfig) (propertyIndent : Str) (maxKeyLength : Nat)
    (hasOptional : Bool) : Nat → List Str → List (List Str) → List Str
  | _, acc, [] => acc
  | propIndex, acc, prop :: rest =>
    let blank : List Str :=
      if isMethodProp prop = true ∧ propIndex > 0 ∧ acc.length > 0 then [[]] else []
    renderFold recur config propertyIndent maxKeyLength hasOptional (propIndex + 1)
      (acc ++ blank ++ renderPropLines recur config propertyIndent maxKeyLength hasOptional prop)
      rest

/-- `formatBlockContent` (interface-formatter.js 184-434), fuelled: `fuel`
bounds the nested-object recursion depth. -/
def formatBlockContentF : Nat → List Str → Str → FmtConfig → List Str
  | 0, _, _, _ => []
  | fuel + 1, blockContentLines, baseIndent, config =>
    if isUnionContent blockContentLines then
      blockContentLines.filterMap (fun line =>
        if jsTrim line = [] then none
        else some (baseIndent ++ getIndentString config ++ jsTrim line))
    else
      let properties := delimitProps (expandLines blockContentLines)
      let mkho := alignScan properties 0 false
      renderFold (formatBlockContentF fuel) config
        (baseIndent ++ getIndentString config) mkho.1 mkho.2 0 [] properties

/-- A fuel bound: every nested recursion consumes at least one `{` character,
so the total character count suffices. -/
def charBound (lines : List Str) : Nat :=
  (lines.map List.length).sum + 1

/-- `formatBlockContent` (interface-formatter.js 184-434). -/
def formatBlockContent (blockContentLines : List Str) (baseIndent : Str)
    (config : FmtConfig) : List Str :=
  formatBlockContentF (charBound blockContentLines) blockContentLines baseIndent config

/-! ## Single-line block formatter (interface-formatter.js 496-555) -/

/-- `extractPropertiesFromLine` (interface-formatter.js 519-555): strip the
outer braces, split on `;`/`,`, keep the parts matching the property
pattern, and render them aligned (dropping everything else). -/
def extractPropertiesFromLine (content : Str) : List Str :=
  let inner := jsTrim ((content.drop 1).dropLast)
  let parts := (splitSemiComma inner).filter (fun p => jsTrim p ≠ [])
  let parsedProps := parts.filterMap (fun part => slbPropMatch (jsTrim part))
  let maxNameLength := parsedProps.foldl (fun m pr => Nat.max m pr.1.length) 0
  parsedProps.map (fun pr =>
    if pr.2.1 then padSpaces pr.1 maxNameLength ++ (" ? : ".toList) ++ pr.2.2 ++ [';']
    else padSpaces pr.1 maxNameLength ++ ("   : ".toList) ++ pr.2.2 ++ [';'])

/-- The lazy-content scan for `(.+?)\s*}(.*)$`: grow the content one
character at a time (never across a newline) until whitespace followed by
`}` and a newline-free suffix is reached. -/
def slbScanContent : Str → Str → Option (Str × Str)
  | _, [] => none
  | content, c :: rest =>
    if c = '\n' then none
    else
      let content2 := content ++ [c]
      match rest.dropWhile (fun x => jsWsChar x) with
      | '}' :: suffix =>
        if suffix.contains '\n' then slbScanContent content2 rest
        else some (content2, suffix)
      | _ => slbScanContent content2 rest

/-- Backtracking over the greedy `\s*` after the opening brace: try the
maximal whitespace run first, then shorter ones. -/
def slbTryWs : Nat → Str → Option (Str × Str)
  | 0, r => slbScanContent [] r
  | w + 1, r =>
    match slbScanContent [] (r.drop (w + 1)) with
    | some res => some res
    | none => slbTryWs w r

/-- Candidate positions for the `{` of the lazy prefix `(.+?{)`: every `{` at
index ≥ 1 not preceded by a newline, leftmost first. -/
def slbCandidates (line : Str) : List Nat :=
  (List.range line.length).filter (fun i =>
    decide (line.getD i ' ' = '{' ∧ 1 ≤ i ∧ ¬ (line.take i).contains '\n'))

/-- The full search for `^(.+?{)\s*(.+?)\s*}(.*)$`: prefix (through its `{`),
content, and suffix. -/
def slbSearch (line : Str) : List Nat → Option (Str × Str × Str)
  | [] => none
  | p :: ps =>
    let r := line.drop (p + 1)
    match slbTryWs ((r.takeWhile (fun c => jsWsChar c)).length) r with
    | some cs => some (line.take (p + 1), cs.1, cs.2)
    | none => slbSearch line ps

/-- `formatSingleLineBlock` (interface-formatter.js 496-514). -/
def formatSingleLineBlock (line : Str) (baseIndent : Str)
    (config : FmtConfig) : List Str :=
  let indent := getIndentString config
  match slbSearch line (slbCandidates line) with
  | none => [line]
  | some pcs =>
    let props := extractPropertiesFromLine (('{' :: pcs.2.1) ++ ['}'])
    (pcs.1 :: props.map (fun p => baseIndent ++ indent ++ p)) ++
      [baseIndent ++ ['}'] ++ pcs.2.2]

/-! ## Derived notions for the block-content claims -/

/-- The delimited direct-child properties of a block's content lines. -/
def blockProps (lines : List Str) : List (List Str) :=
  delimitProps (expandLines lines)

def blockMaxKey (lines : List Str) : Nat := (alignScan (blockProps lines) 0 false).1

def blockHasOpt (lines : List Str) : Bool := (alignScan (blockProps lines) 0 false).2

/-- The key of a recognized (method or plain) property. -/
def propKey (prop : List Str) : Option Str :=
  match classifyProp prop with
  | .methodP k _ _ => some k
  | .plainP k _ _ => some k
  | _ => none

/-- One property's output segment including its optional leading blank
separator (`idx` is the property's position in the block). -/
def propSeg (fuel : Nat) (config : FmtConfig) (propertyIndent : Str)
    (maxKeyLength : Nat) (hasOptional : Bool) (idx : Nat) (prop : List Str) :
    List Str :=
  (if isMethodProp prop = true ∧ idx > 0 then [([] : Str)] else []) ++
    renderPropLines (formatBlockContentF fuel) config propertyIndent
      maxKeyLength hasOptional prop

/-- The per-property segments whose concatenation is the block output. -/
def blockSegments (fuel : Nat) (lines : List Str) (baseIndent : Str)
    (config : FmtConfig) : List (List Str) :=
  (blockProps lines).enum.map (fun pi =>
    propSeg fuel config (baseIndent ++ getIndentString config)
      (blockMaxKey lines) (blockHasOpt lines) pi.1 pi.2)

/-- A plain (non-method) property with a simple key: only word or `$`
characters, no generics. -/
def plainSimpleProp (prop : List Str) : Bool :=
  match classifyProp prop with
  | .plainP key _ _ => key.all (fun c => isWordDollar c)
  | _ => false

/-- Index of the first `:` of a line (the claim's "colon column"). -/
def firstColonIdx (s : Str) : Option Nat := idxOf s ':'

/-- First non-blank line of a segment. -/
def segHead (seg : List Str) : Option Str :=
  (seg.dropWhile (fun l => l.isEmpty)).head?

/-! ## Concrete inputs for the block-content claims -/

def cfg4 : FmtConfig := ⟨true, "spaces", 4⟩

def idemLines : List Str :=
  ["    name: string;".toList, "    save(): void;".toList]

def alignCexLines : List Str :=
  ["    a: X;".toList, "    b<T>: Y;".toList]

def nestedParenMethodLine : Str :=
  "    onClick(cb: (x: string) => void): void;".toList

def slbBadLine : Str :=
  "interface X \x7b a: string; 123 \x7d".toList

/-- The shape of every key captured by `[\w$]+(?:<[^>]+>)?`: either a nonempty
run of word/`$` characters, or such a run followed by a complete angle-bracket
generic whose body is nonempty and free of `>`. -/
def goodKey (key : Str) : Prop :=
  (key ≠ [] ∧ ∀ c ∈ key, isWordDollar c = true) ∨
  ∃ w inner, w ≠ [] ∧ (∀ c ∈ w, isWordDollar c = true) ∧ inner ≠ [] ∧
    (∀ c ∈ inner, c ≠ '>') ∧ key = w ++ '<' :: (inner ++ ['>'])

def c4Lines : List Str :=
  ["    a: string;".toList, "    b?: number;".toList]

/-! # Theorems

Everything below this point is a theorem; all definitions are above. -/

/-! ## List and sorting helpers -/

theorem mem_insertLe {x y : Str} {l : List Str} :
    y ∈ insertLe x l ↔ y = x ∨ y ∈ l := by
  induction l with
  | nil => simp [insertLe]
  | cons a as ih =>
    simp only [insertLe]
    split
    · simp [List.mem_cons]
    · simp [List.mem_cons, ih]; tauto

theorem mem_jsSort {y : Str} {l : List Str} : y ∈ jsSort l ↔ y ∈ l := by
  induction l with
  | nil => simp [jsSort]
  | cons a as ih => simp [jsSort, mem_insertLe, ih, List.mem_cons]

theorem length_insertLe (x : Str) (l : List Str) :
    (insertLe x l).length = l.length + 1 := by
  induction l with
  | nil => simp [insertLe]
  | cons a as ih =>
    simp only [insertLe]
    split <;> simp [ih]

theorem length_jsSort (l : List Str) : (jsSort l).length = l.length := by
  induction l with
  | nil => rfl
  | cons a as ih => simp [jsSort, length_insertLe, ih]

theorem jsSort_ne_nil {l : List Str} (h : l ≠ []) : jsSort l ≠ [] := by
  intro hc
  have := length_jsSort l
  rw [hc] at this
  exact h (List.length_eq_zero.mp this.symm)

theorem getLast_mem_jsSort {l : List Str} (h : jsSort l ≠ []) :
    (jsSort l).getLast h ∈ l :=
  mem_jsSort.mp (List.getLast_mem h)

/-! ## firstIdxB -/

theorem firstIdxB_comp {α β : Type} (f : α → β) (q : β → Bool) (l : List α) :
    firstIdxB (fun a => q (f a)) l = firstIdxB q (l.map f) := by
  induction l with
  | nil => rfl
  | cons a as ih =>
    simp only [firstIdxB, List.map_cons]
    split <;> simp_all

theorem firstIdxB_spec {α : Type} {p : α → Bool} {l : List α} {i : Nat} (d : α)
    (h : firstIdxB p l = some i) :
    i < l.length ∧ p (l.getD i d) = true ∧ ∀ k, k < i → p (l.getD k d) = false := by
  induction l generalizing i with
  | nil => simp [firstIdxB] at h
  | cons x xs ih =>
    simp only [firstIdxB] at h
    split at h
    · cases h
      refine ⟨Nat.succ_pos _, by rwa [List.getD_cons_zero], fun k hk => absurd hk (Nat.not_lt_zero k)⟩
    · cases hx : firstIdxB p xs with
      | none => rw [hx] at h; simp at h
      | some j =>
        rw [hx] at h
        simp only [Option.map_some'] at h
        cases h
        obtain ⟨h1, h2, h3⟩ := ih hx
        refine ⟨Nat.succ_lt_succ h1, by rwa [List.getD_cons_succ], ?_⟩
        intro k hk
        cases k with
        | zero =>
          rw [List.getD_cons_zero]
          simpa using ‹¬ p x = true›
        | succ k' =>
          rw [List.getD_cons_succ]
          exact h3 k' (Nat.lt_of_succ_lt_succ hk)

theorem firstIdxB_le_of_true {α : Type} (p : α → Bool) {l : List α} (d : α)
    {i : Nat} (hi : i < l.length) (hp : p (l.getD i d) = true) :
    ∃ k, firstIdxB p l = some k ∧ k ≤ i := by
  induction l generalizing i with
  | nil => simp at hi
  | cons x xs ih =>
    simp only [firstIdxB]
    split
    · exact ⟨0, rfl, Nat.zero_le _⟩
    · cases i with
      | zero =>
        rw [List.getD_cons_zero] at hp
        simp_all
      | succ i' =>
        rw [List.getD_cons_succ] at hp
        obtain ⟨k, hk, hle⟩ := ih (Nat.lt_of_succ_lt_succ hi) hp
        exact ⟨k + 1, by simp [hk], Nat.succ_le_succ hle⟩

theorem firstIdxB_some_any {α : Type} {p : α → Bool} {l : List α} {i : Nat}
    (h : firstIdxB p l = some i) : l.any p = true := by
  induction l generalizing i with
  | nil => simp [firstIdxB] at h
  | cons x xs ih =>
    simp only [firstIdxB] at h
    simp only [List.any_cons, Bool.or_eq_true]
    split at h
    · left; assumption
    · cases hx : firstIdxB p xs with
      | none => rw [hx] at h; simp at h
      | some j => exact Or.inr (ih hx)

/-! ## matchesAt -/

theorem matchesAt_nil (j : Nat) : matchesAt [] j = [] := by
  simp [matchesAt]

theorem matchesAt_cons_zero (g : GroupState) (gs : List GroupState) :
    matchesAt (g :: gs) 0 = g.matchList := by
  simp [matchesAt]

theorem matchesAt_cons_succ (g : GroupState) (gs : List GroupState) (j : Nat) :
    matchesAt (g :: gs) (j + 1) = matchesAt gs j := by
  simp [matchesAt]

/-! ## pushFirstMatch -/

theorem pushFirstMatch_group_map (l imp : Str) (gs : List GroupState) :
    ((pushFirstMatch l imp gs).1).map GroupState.group = gs.map GroupState.group := by
  induction gs with
  | nil => rfl
  | cons g gs ih =>
    simp only [pushFirstMatch]
    split <;> simp_all

theorem pushFirstMatch_header_map (l imp : Str) (gs : List GroupState) :
    ((pushFirstMatch l imp gs).1).map GroupState.header = gs.map GroupState.header := by
  induction gs with
  | nil => rfl
  | cons g gs ih =>
    simp only [pushFirstMatch]
    split <;> simp_all

theorem pushFirstMatch_snd (l imp : Str) (gs : List GroupState) :
    (pushFirstMatch l imp gs).2 = gs.any (fun g => groupMatcherB g.group l) := by
  induction gs with
  | nil => rfl
  | cons g gs ih =>
    simp only [pushFirstMatch, List.any_cons]
    split <;> simp_all

theorem pushFirstMatch_matchesAt (l imp : Str) (gs : List GroupState) (j : Nat) :
    matchesAt (pushFirstMatch l imp gs).1 j =
      if firstIdxB (fun g => groupMatcherB g.group l) gs = some j
      then matchesAt gs j ++ [imp] else matchesAt gs j := by
  induction gs generalizing j with
  | nil => simp [pushFirstMatch, firstIdxB, matchesAt_nil]
  | cons g gs ih =>
    simp only [pushFirstMatch, firstIdxB]
    split
    · cases j with
      | zero => simp [matchesAt_cons_zero]
      | succ j' => simp [matchesAt_cons_succ]
    · cases j with
      | zero =>
        have : ((firstIdxB (fun g => groupMatcherB g.group l) gs).map (· + 1) = some 0) = False := by
          simp
        simp [matchesAt_cons_zero, this]
      | succ j' =>
        rw [matchesAt_cons_succ, matchesAt_cons_succ, ih]
        congr 1
        simp

theorem pushFirstMatch_mem {l imp : Str} {gs : List GroupState} {g' : GroupState}
    {x : Str} (hg : g' ∈ (pushFirstMatch l imp gs).1) (hx : x ∈ g'.matchList) :
    (∃ g ∈ gs, x ∈ g.matchList) ∨ x = imp := by
  induction gs with
  | nil => simp [pushFirstMatch] at hg
  | cons g gs ih =>
    simp only [pushFirstMatch] at hg
    split at hg
    · rcases List.mem_cons.mp hg with h | h
      · subst h
        simp only [List.mem_append, List.mem_singleton] at hx
        rcases hx with h | h
        · exact Or.inl ⟨g, List.mem_cons_self _ _, h⟩
        · exact Or.inr h
      · exact Or.inl ⟨g', List.mem_cons_of_mem _ h, hx⟩
    · rcases List.mem_cons.mp hg with h | h
      · subst h
        exact Or.inl ⟨g', List.mem_cons_self _ _, hx⟩
      · rcases ih h with ⟨g0, hg0, hx0⟩ | h0
        · exact Or.inl ⟨g0, List.mem_cons_of_mem _ hg0, hx0⟩
        · exact Or.inr h0

/-! ## processImports -/

theorem processImports_group_map (stmts : List Str) :
    ∀ gs seen, (processImports gs seen stmts).map GroupState.group =
      gs.map GroupState.group := by
  induction stmts with
  | nil => intro gs seen; rfl
  | cons imp rest ih =>
    intro gs seen
    simp only [processImports]
    split
    · exact ih gs seen
    · rw [ih, pushFirstMatch_group_map]

theorem processImports_header_map (stmts : List Str) :
    ∀ gs seen, (processImports gs seen stmts).map GroupState.header =
      gs.map GroupState.header := by
  induction stmts with
  | nil => intro gs seen; rfl
  | cons imp rest ih =>
    intro gs seen
    simp only [processImports]
    split
    · exact ih gs seen
    · rw [ih, pushFirstMatch_header_map]

theorem processImports_count_seen (stmts : List Str) :
    ∀ gs seen (imp : Str) (j : Nat), imp ∈ seen →
      (matchesAt (processImports gs seen stmts) j).count imp =
        (matchesAt gs j).count imp := by
  induction stmts with
  | nil => intro gs seen imp j _; rfl
  | cons x rest ih =>
    intro gs seen imp j hseen
    simp only [processImports]
    split
    · exact ih gs seen imp j hseen
    · have hne : x ≠ imp := by
        intro hc; subst hc; exact ‹¬ x ∈ seen› hseen
      have hpush : (matchesAt (pushFirstMatch (collapseImport false x) x gs).1 j).count imp =
          (matchesAt gs j).count imp := by
        rw [pushFirstMatch_matchesAt]
        split
        · have h0 : List.count imp [x] = 0 :=
            List.count_eq_zero.mpr (by
              simp only [List.mem_singleton]
              exact fun hc => hne hc.symm)
          rw [List.count_append, h0, Nat.add_zero]
        · rfl
      rw [ih _ _ imp j (by split <;> simp [hseen]), hpush]

theorem processImports_mem (stmts : List Str) :
    ∀ gs seen (g' : GroupState) (x : Str), g' ∈ processImports gs seen stmts →
      x ∈ g'.matchList → (∃ g ∈ gs, x ∈ g.matchList) ∨ x ∈ stmts := by
  induction stmts with
  | nil =>
    intro gs seen g' x hg hx
    exact Or.inl ⟨g', hg, hx⟩
  | cons imp rest ih =>
    intro gs seen g' x hg hx
    simp only [processImports] at hg
    split at hg
    · rcases ih gs seen g' x hg hx with h | h
      · exact Or.inl h
      · exact Or.inr (List.mem_cons_of_mem _ h)
    · rcases ih _ _ g' x hg hx with ⟨g0, hg0, hx0⟩ | h
      · rcases pushFirstMatch_mem hg0 hx0 with h | h
        · exact Or.inl h
        · subst h; exact Or.inr (List.mem_cons_self _ _)
      · exact Or.inr (List.mem_cons_of_mem _ h)

theorem processImports_count_main (stmts : List Str) :
    ∀ gs seen (imp : Str) (i : Nat), imp ∈ stmts → imp ∉ seen →
      (∀ j, (matchesAt gs j).count imp = 0) →
      firstIdxB (fun g => groupMatcherB g.group (collapseImport false imp)) gs = some i →
      (matchesAt (processImports gs seen stmts) i).count imp = 1 ∧
        ∀ j, j ≠ i → (matchesAt (processImports gs seen stmts) j).count imp = 0 := by
  induction stmts with
  | nil => intro gs seen imp i h; simp at h
  | cons x rest ih =>
    intro gs seen imp i hmem hseen hzero hidx
    simp only [processImports]
    by_cases hx : x = imp
    · subst hx
      rw [if_neg hseen]
      have hsnd : (pushFirstMatch (collapseImport false x) x gs).2 = true := by
        rw [pushFirstMatch_snd]
        exact firstIdxB_some_any hidx
      rw [if_pos hsnd]
      have hPush : ∀ j, (matchesAt (pushFirstMatch (collapseImport false x) x gs).1 j).count x =
          if j = i then 1 else 0 := by
        intro j
        rw [pushFirstMatch_matchesAt]
        by_cases hji : j = i
        · subst hji
          rw [if_pos hidx, if_pos rfl, List.count_append, hzero j, List.count_singleton_self]
        · rw [if_neg (by intro hc; rw [hidx] at hc; exact hji (Option.some.inj hc).symm),
            if_neg hji]
          exact hzero j
      constructor
      · rw [processImports_count_seen rest _ _ x i (List.mem_cons_self _ _)]
        simpa using hPush i
      · intro j hj
        rw [processImports_count_seen rest _ _ x j (List.mem_cons_self _ _)]
        simpa [hj] using hPush j
    · have hmem' : imp ∈ rest := by
        rcases List.mem_cons.mp hmem with h | h
        · exact absurd h.symm hx
        · exact h
      split
      · exact ih gs seen imp i hmem' hseen hzero hidx
      · have hzero' : ∀ j, (matchesAt (pushFirstMatch (collapseImport false x) x gs).1 j).count imp = 0 := by
          intro j
          rw [pushFirstMatch_matchesAt]
          split
          · have h0 : List.count imp [x] = 0 :=
              List.count_eq_zero.mpr (by
                simp only [List.mem_singleton]
                exact fun hc => hx hc.symm)
            rw [List.count_append, h0, Nat.add_zero]
            exact hzero j
          · exact hzero j
        have hseen' : imp ∉ (if (pushFirstMatch (collapseImport false x) x gs).2 then x :: seen else seen) := by
          split
          · intro hc
            rcases List.mem_cons.mp hc with h | h
            · exact hx h.symm
            · exact hseen h
          · exact hseen
        have hidx' : firstIdxB (fun g => groupMatcherB g.group (collapseImport false imp))
            (pushFirstMatch (collapseImport false x) x gs).1 = some i := by
          have h1 := firstIdxB_comp GroupState.group
            (fun gr => groupMatcherB gr (collapseImport false imp))
            (pushFirstMatch (collapseImport false x) x gs).1
          have h2 := firstIdxB_comp GroupState.group
            (fun gr => groupMatcherB gr (collapseImport false imp)) gs
          rw [h1, pushFirstMatch_group_map, ← h2]
          exact hidx
        exact ih _ _ imp i hmem' hseen' hzero' hidx'

/-! ## initGroups -/
theorem initGroups_group_map (cfg : ImportConfig) :
    (initGroups cfg).map GroupState.group = cfg.groups := by
  have hcomp : (GroupState.group ∘ fun g : ImportGroup =>
      (⟨createHeader g.name cfg.HEADER_CHAR cfg.TO_COLUMN_WIDTH, g, []⟩ : GroupState)) = id := rfl
  rw [initGroups, List.map_map, hcomp, List.map_id]

theorem initGroups_matchList {cfg : ImportConfig} {g : GroupState}
    (h : g ∈ initGroups cfg) : g.matchList = [] := by
  simp only [initGroups, List.mem_map] at h
  obtain ⟨g0, _, hg⟩ := h
  rw [← hg]

theorem initGroups_header {cfg : ImportConfig} {g : GroupState}
    (h : g ∈ initGroups cfg) :
    ∃ g0 ∈ cfg.groups,
      g.header = createHeader g0.name cfg.HEADER_CHAR cfg.TO_COLUMN_WIDTH := by
  simp only [initGroups, List.mem_map] at h
  obtain ⟨g0, hg0, hg⟩ := h
  exact ⟨g0, hg0, by rw [← hg]⟩

theorem initGroups_matchesAt (cfg : ImportConfig) (j : Nat) :
    matchesAt (initGroups cfg) j = [] := by
  by_cases hj : j < (initGroups cfg).length
  · have hmem : (initGroups cfg)[j] ∈ initGroups cfg := List.getElem_mem hj
    have := initGroups_matchList hmem
    simp only [matchesAt]
    rw [List.getElem?_eq_getElem hj]
    simpa using this
  · simp only [matchesAt]
    rw [List.getElem?_eq_none (Nat.le_of_not_lt hj)]
    rfl

/-! ## Result building -/

theorem foldl_appendGroupLines (gs : List GroupState) :
    ∀ acc, gs.foldl appendGroupLines acc = acc ++ groupBlocks gs := by
  induction gs with
  | nil => intro acc; simp [groupBlocks]
  | cons g gs ih =>
    intro acc
    rw [List.foldl_cons, ih]
    simp only [groupBlocks, List.filter_cons]
    by_cases hp : g.matchList.length ≠ 0
    · rw [if_pos (by simpa using hp)]
      rw [List.flatMap_cons, appendGroupLines, if_pos hp]
      simp [List.append_assoc]
    · rw [if_neg (by simpa using hp)]
      rw [appendGroupLines, if_neg hp]

theorem mem_groupBlocks {gs : List GroupState} {l : Str}
    (h : l ∈ groupBlocks gs) :
    (∃ g ∈ gs, l = g.header) ∨ (∃ g ∈ gs, l ∈ g.matchList) ∨ l = [] := by
  simp only [groupBlocks, List.mem_flatMap] at h
  obtain ⟨g, hg, hl⟩ := h
  have hgs : g ∈ gs := List.mem_of_mem_filter hg
  rcases List.mem_cons.mp hl with h | h
  · exact Or.inl ⟨g, hgs, h⟩
  · rcases List.mem_append.mp h with h | h
    · exact Or.inr (Or.inl ⟨g, hgs, mem_jsSort.mp h⟩)
    · simp only [List.mem_singleton] at h
      exact Or.inr (Or.inr h)

theorem blockOf_eq_concat (g : GroupState) :
    g.header :: (jsSort g.matchList ++ [[]]) =
      (g.header :: jsSort g.matchList) ++ [([] : Str)] := by
  simp

theorem blockOf_getLast? (g : GroupState) :
    (g.header :: (jsSort g.matchList ++ [[]])).getLast? = some [] := by
  rw [blockOf_eq_concat]
  exact List.getLast?_concat _

theorem blockOf_dropLast (g : GroupState) :
    (g.header :: (jsSort g.matchList ++ [[]])).dropLast =
      g.header :: jsSort g.matchList := by
  rw [blockOf_eq_concat]
  exact List.dropLast_concat

/-- Shape of the result-building output on a nonempty filtered list: it starts
with the first header, ends with a blank line, and the entry before that blank
line is one of the last group's (sorted) matches. -/
theorem groupBlocks_shape (gs : List GroupState)
    (hne : gs.filter (fun g => g.matchList.length != 0) ≠ []) :
    ∃ hd tl last,
      groupBlocks gs = hd :: tl ∧ tl ≠ [] ∧
      (∃ g ∈ gs, hd = g.header) ∧
      (groupBlocks gs).getLast? = some [] ∧
      ((groupBlocks gs).dropLast).getLast? = some last ∧
      (∃ g ∈ gs, last ∈ g.matchList) := by
  have main : ∀ (F : List GroupState), F ≠ [] → (∀ g ∈ F, g.matchList ≠ []) →
      ∃ hd tl last,
        F.flatMap (fun g => g.header :: (jsSort g.matchList ++ [[]])) = hd :: tl ∧
        tl ≠ [] ∧ (∃ g ∈ F, hd = g.header) ∧
        (F.flatMap (fun g => g.header :: (jsSort g.matchList ++ [[]]))).getLast? = some [] ∧
        ((F.flatMap (fun g => g.header :: (jsSort g.matchList ++ [[]]))).dropLast).getLast? = some last ∧
        (∃ g ∈ F, last ∈ g.matchList) := by
    intro F
    induction F with
    | nil => intro h; exact absurd rfl h
    | cons g F' ih =>
      intro _ hprop
      by_cases hF' : F' = []
      · subst hF'
        have hs : jsSort g.matchList ≠ [] :=
          jsSort_ne_nil (hprop g (List.mem_cons_self _ _))
        simp only [List.flatMap_cons, List.flatMap_nil, List.append_nil]
        refine ⟨g.header, jsSort g.matchList ++ [[]],
          (jsSort g.matchList).getLast hs, rfl, by simp,
          ⟨g, List.mem_cons_self _ _, rfl⟩, blockOf_getLast? g, ?_, ?_⟩
        · rw [blockOf_dropLast, List.getLast?_cons, List.getLast?_eq_getLast _ hs]
          rfl
        · exact ⟨g, List.mem_cons_self _ _, mem_jsSort.mp (List.getLast_mem hs)⟩
      · obtain ⟨hd', tl', last', heq, htl, hhd, hlast, hdrop, hmem⟩ :=
          ih hF' (fun g' hg' => hprop g' (List.mem_cons_of_mem _ hg'))
        have hX : F'.flatMap (fun g => g.header :: (jsSort g.matchList ++ [[]])) ≠ [] := by
          rw [heq]; exact List.cons_ne_nil _ _
        have hflat : (g :: F').flatMap (fun g => g.header :: (jsSort g.matchList ++ [[]])) =
            g.header :: ((jsSort g.matchList ++ [[]]) ++
              F'.flatMap (fun g => g.header :: (jsSort g.matchList ++ [[]]))) := by
          simp [List.flatMap_cons]
        refine ⟨g.header, (jsSort g.matchList ++ [[]]) ++
          F'.flatMap (fun g => g.header :: (jsSort g.matchList ++ [[]])), last',
          hflat, by simp, ⟨g, List.mem_cons_self _ _, rfl⟩, ?_, ?_, ?_⟩
        · rw [hflat, List.getLast?_cons, List.getLast?_append, hlast]
          rfl
        · have hdropX : (F'.flatMap (fun g => g.header :: (jsSort g.matchList ++ [[]]))).dropLast ≠ [] := by
            intro hc
            rw [hc] at hdrop
            simp at hdrop
          have hflat2 : ((g :: F').flatMap (fun g => g.header :: (jsSort g.matchList ++ [[]]))).dropLast =
              (g.header :: (jsSort g.matchList ++ [[]])) ++
                (F'.flatMap (fun g => g.header :: (jsSort g.matchList ++ [[]]))).dropLast := by
            rw [List.flatMap_cons, ← List.cons_append,
              List.dropLast_append_of_ne_nil _ hX]
          rw [hflat2, List.getLast?_append, hdrop]
          rfl
        · obtain ⟨g0, hg0, hl0⟩ := hmem
          exact ⟨g0, List.mem_cons_of_mem _ hg0, hl0⟩
  have hprop : ∀ g ∈ gs.filter (fun g => g.matchList.length != 0), g.matchList ≠ [] := by
    intro g hg
    have := List.of_mem_filter hg
    simpa [List.length_eq_zero] using this
  obtain ⟨hd, tl, last, heq, htl, hhd, hlast, hdrop, hmem⟩ :=
    main (gs.filter (fun g => g.matchList.length != 0)) hne hprop
  refine ⟨hd, tl, last, heq, htl, ?_, hlast, hdrop, ?_⟩
  · obtain ⟨g0, hg0, h0⟩ := hhd
    exact ⟨g0, List.mem_of_mem_filter hg0, h0⟩
  · obtain ⟨g0, hg0, h0⟩ := hmem
    exact ⟨g0, List.mem_of_mem_filter hg0, h0⟩

theorem assignedGroups_header {stmts : List Str} {cfg : ImportConfig}
    {g : GroupState} (hg : g ∈ assignedGroups stmts cfg) :
    ∃ g0 ∈ cfg.groups,
      g.header = createHeader g0.name cfg.HEADER_CHAR cfg.TO_COLUMN_WIDTH := by
  have hmem : g.header ∈ (assignedGroups stmts cfg).map GroupState.header :=
    List.mem_map_of_mem _ hg
  rw [assignedGroups, processImports_header_map] at hmem
  obtain ⟨s, hs, hsh⟩ := List.mem_map.mp hmem
  obtain ⟨g0, hg0, h0⟩ := initGroups_header hs
  exact ⟨g0, hg0, by rw [← hsh, h0]⟩

theorem assignedGroups_matchList_mem {stmts : List Str} {cfg : ImportConfig}
    {g : GroupState} {x : Str} (hg : g ∈ assignedGroups stmts cfg)
    (hx : x ∈ g.matchList) : x ∈ stmts := by
  rcases processImports_mem stmts _ _ g x hg hx with ⟨g0, hg0, hx0⟩ | h
  · rw [initGroups_matchList hg0] at hx0
    exact absurd hx0 (List.not_mem_nil x)
  · exact h

/-- C2 (confirmed).  With a configuration whose last group is an unconditional
catch-all, `groupAndFormatImports` assigns every statement occurring in the
input to exactly one group: the first group (in declared order) whose
predicate matches the statement's single-line normalized form; a statement
matched by no earlier group lands in the last (catch-all) group. -/
theorem import_grouping_first_match (stmts : List Str) (cfg : ImportConfig)
    (hne : cfg.groups ≠ [])
    (hlast : isOtherGroupB (cfg.groups.getLast hne) = true) :
    ∀ imp ∈ stmts, ∃ i, i < cfg.groups.length ∧
      firstMatchIdx cfg.groups (collapseImport false imp) = some i ∧
      (matchesAt (assignedGroups stmts cfg) i).count imp = 1 ∧
      (∀ j, j ≠ i → (matchesAt (assignedGroups stmts cfg) j).count imp = 0) ∧
      ((∀ j, j < cfg.groups.length - 1 →
          groupMatcherB (cfg.groups.getD j dummyGroup) (collapseImport false imp) = false) →
        i = cfg.groups.length - 1) := by
  intro imp hmem
  have hlen : 0 < cfg.groups.length := List.length_pos.mpr hne
  have hlastIdx : cfg.groups.getD (cfg.groups.length - 1) dummyGroup =
      cfg.groups.getLast hne := by
    rw [List.getLast_eq_getElem, List.getD_eq_getElem?_getD,
      List.getElem?_eq_getElem (by omega)]
    rfl
  have hmatcher : groupMatcherB (cfg.groups.getD (cfg.groups.length - 1) dummyGroup)
      (collapseImport false imp) = true := by
    rw [hlastIdx, groupMatcherB, if_pos hlast]
  obtain ⟨i, hidx, hile⟩ :=
    firstIdxB_le_of_true (fun g => groupMatcherB g (collapseImport false imp)) dummyGroup
      (by omega : cfg.groups.length - 1 < cfg.groups.length) hmatcher
  have hidxState : firstIdxB (fun g => groupMatcherB g.group (collapseImport false imp))
      (initGroups cfg) = some i := by
    have h1 := firstIdxB_comp GroupState.group
      (fun gr => groupMatcherB gr (collapseImport false imp)) (initGroups cfg)
    rw [h1, initGroups_group_map]
    exact hidx
  obtain ⟨hone, hzero⟩ := processImports_count_main stmts (initGroups cfg) [] imp i hmem
    (List.not_mem_nil imp) (fun j => by rw [initGroups_matchesAt]; rfl) hidxState
  refine ⟨i, by omega, hidx, hone, hzero, ?_⟩
  intro hall
  rcases Nat.lt_or_ge i (cfg.groups.length - 1) with hlt | hge
  · exfalso
    obtain ⟨_, htrue, _⟩ := firstIdxB_spec dummyGroup hidx
    rw [hall i hlt] at htrue
    exact Bool.false_ne_true htrue
  · omega

/-- Witness for C2 at a concrete input. -/
theorem import_grouping_first_match_witness :
    ∃ i, i < cfgReact.groups.length ∧
      firstMatchIdx cfgReact.groups (collapseImport false reactImport) = some i ∧
      (matchesAt (assignedGroups [reactImport] cfgReact) i).count reactImport = 1 ∧
      (∀ j, j ≠ i → (matchesAt (assignedGroups [reactImport] cfgReact) j).count reactImport = 0) ∧
      ((∀ j, j < cfgReact.groups.length - 1 →
          groupMatcherB (cfgReact.groups.getD j dummyGroup) (collapseImport false reactImport) = false) →
        i = cfgReact.groups.length - 1) :=
  import_grouping_first_match [reactImport] cfgReact (by decide) (by decide)
    reactImport (List.mem_singleton.mpr rfl)

/-- C3 (confirmed).  A non-catch-all group matches a line exactly when one of
its literal matcher strings occurs as a substring of the line; in particular
the quoted matcher `"react"` does not match an import from `"fictoan-react"`
(which therefore falls through to the catch-all group), while it does match
an import from `"react"`. -/
theorem matcher_substring_semantics :
    (∀ (g : ImportGroup) (line : Str), isOtherGroupB g = false →
      (groupMatcherB g line = true ↔ ∃ m ∈ g.matchers, listIncludes line m = true)) ∧
    listIncludes (collapseImport false fictoanImport) ("\"react\"".toList) = false ∧
    matchesAt (assignedGroups [fictoanImport] cfgReact) 0 = [] ∧
    matchesAt (assignedGroups [fictoanImport] cfgReact) 1 = [fictoanImport] ∧
    matchesAt (assignedGroups [reactImport] cfgReact) 0 = [reactImport] := by
  refine ⟨?_, by decide, by decide, by decide, by decide⟩
  intro g line hg
  rw [groupMatcherB, if_neg (by simp [hg])]
  simp [List.any_eq_true]

/-- Witness for C3: the quoted matcher accepts a genuine `"react"` import. -/
theorem matcher_substring_semantics_witness :
    groupMatcherB ⟨"// EXTERNAL ".toList, ["\"react\"".toList]⟩
      (collapseImport false reactImport) = true :=
  (matcher_substring_semantics.1 _ _ (by decide)).mpr
    ⟨"\"react\"".toList, by decide, by decide⟩

/-- C9 counterexample: with the empty string as an import statement, the
output of `groupAndFormatImports` is non-empty and ends with a blank line,
contradicting the claim that a non-empty output never ends with one. -/
theorem imports_output_trailing_blank_cex :
    groupAndFormatImports [[]] cfgOther ≠ [] ∧
    (groupAndFormatImports [[]] cfgOther).getLast? = some [] := by
  constructor
  · decide
  · decide

/-- C9 as amended (proved).  Every output line of `groupAndFormatImports` is a
group header built by `createHeader`, one of the input statements, or the
blank separator; an empty input yields an empty output; and provided no input
statement is the empty string and no group header is empty, a non-empty
output neither starts nor ends with a blank line. -/
theorem import_output_lines_classified (stmts : List Str) (cfg : ImportConfig)
    (h1 : ([] : Str) ∉ stmts)
    (h2 : ∀ g ∈ cfg.groups,
      createHeader g.name cfg.HEADER_CHAR cfg.TO_COLUMN_WIDTH ≠ []) :
    (∀ l ∈ groupAndFormatImports stmts cfg,
      (∃ g ∈ cfg.groups, l = createHeader g.name cfg.HEADER_CHAR cfg.TO_COLUMN_WIDTH) ∨
      l ∈ stmts ∨ l = []) ∧
    (stmts = [] → groupAndFormatImports stmts cfg = []) ∧
    (groupAndFormatImports stmts cfg ≠ [] →
      (groupAndFormatImports stmts cfg).head? ≠ some [] ∧
      (groupAndFormatImports stmts cfg).getLast? ≠ some []) := by
  have hout : groupAndFormatImports stmts cfg =
      popTrailingBlank (groupBlocks (assignedGroups stmts cfg)) := by
    rw [groupAndFormatImports, foldl_appendGroupLines, List.nil_append]
  refine ⟨?_, ?_, ?_⟩
  · intro l hl
    rw [hout, popTrailingBlank] at hl
    have hl' : l ∈ groupBlocks (assignedGroups stmts cfg) := by
      split at hl
      · exact (List.dropLast_sublist _).mem hl
      · exact hl
    rcases mem_groupBlocks hl' with ⟨g, hg, h⟩ | ⟨g, hg, h⟩ | h
    · obtain ⟨g0, hg0, h0⟩ := assignedGroups_header hg
      exact Or.inl ⟨g0, hg0, by rw [h, h0]⟩
    · exact Or.inr (Or.inl (assignedGroups_matchList_mem hg h))
    · exact Or.inr (Or.inr h)
  · intro hnil
    subst hnil
    have : assignedGroups [] cfg = initGroups cfg := rfl
    rw [hout, this]
    have hfil : (initGroups cfg).filter (fun g => g.matchList.length != 0) = [] := by
      rw [List.filter_eq_nil_iff]
      intro g hg
      rw [initGroups_matchList hg]
      simp
    rw [groupBlocks, hfil]
    rfl
  · intro hne
    by_cases hfil : (assignedGroups stmts cfg).filter (fun g => g.matchList.length != 0) = []
    · exfalso
      apply hne
      rw [hout, groupBlocks, hfil]
      rfl
    · obtain ⟨hd, tl, last, heq, htl, hhd, hlast, hdrop, hmem⟩ :=
        groupBlocks_shape _ hfil
      have houtd : groupAndFormatImports stmts cfg =
          (groupBlocks (assignedGroups stmts cfg)).dropLast := by
        rw [hout, popTrailingBlank, if_pos hlast]
      constructor
      · rw [houtd, heq, List.dropLast_cons_of_ne_nil htl]
        obtain ⟨g, hg, hh⟩ := hhd
        obtain ⟨g0, hg0, h0⟩ := assignedGroups_header hg
        simp only [List.head?_cons]
        intro hc
        apply h2 g0 hg0
        rw [← h0, ← hh]
        exact (Option.some.inj hc).symm ▸ rfl
      · rw [houtd, hdrop]
        intro hc
        obtain ⟨g, hg, hl⟩ := hmem
        have : last ∈ stmts := assignedGroups_matchList_mem hg hl
        rw [Option.some.inj hc] at this
        exact h1 this

/-- Witness for C9's amended statement at a concrete input. -/
theorem import_output_lines_classified_witness :
    (∀ l ∈ groupAndFormatImports [reactImport] cfgReact,
      (∃ g ∈ cfgReact.groups,
        l = createHeader g.name cfgReact.HEADER_CHAR cfgReact.TO_COLUMN_WIDTH) ∨
      l ∈ [reactImport] ∨ l = []) ∧
    (([reactImport] : List Str) = [] → groupAndFormatImports [reactImport] cfgReact = []) ∧
    (groupAndFormatImports [reactImport] cfgReact ≠ [] →
      (groupAndFormatImports [reactImport] cfgReact).head? ≠ some [] ∧
      (groupAndFormatImports [reactImport] cfgReact).getLast? ≠ some []) :=
  import_output_lines_classified [reactImport] cfgReact (by decide) (by decide)

/-- C10 (confirmed).  A configured group whose name contains `OTHER` or whose
matcher set is empty is an unconditional catch-all: its predicate accepts
every line, and no group declared after it ever receives an import. -/
theorem catch_all_starves_later_groups (stmts : List Str) (cfg : ImportConfig)
    (i : Nat) (hi : i < cfg.groups.length)
    (hcatch : isOtherGroupB (cfg.groups.getD i dummyGroup) = true) :
    (∀ line, groupMatcherB (cfg.groups.getD i dummyGroup) line = true) ∧
    ∀ j, i < j → matchesAt (assignedGroups stmts cfg) j = [] := by
  have hmat : ∀ line, groupMatcherB (cfg.groups.getD i dummyGroup) line = true := by
    intro line
    rw [groupMatcherB, if_pos hcatch]
  refine ⟨hmat, ?_⟩
  have key : ∀ (stmts' : List Str) gs seen, gs.map GroupState.group = cfg.groups →
      (∀ j, i < j → matchesAt gs j = []) →
      ∀ j, i < j → matchesAt (processImports gs seen stmts') j = [] := by
    intro stmts'
    induction stmts' with
    | nil => intro gs seen _ hinv j hj; exact hinv j hj
    | cons x rest ih =>
      intro gs seen hmap hinv j hj
      simp only [processImports]
      split
      · exact ih gs seen hmap hinv j hj
      · refine ih _ _ ?_ ?_ j hj
        · rw [pushFirstMatch_group_map]; exact hmap
        · intro j' hj'
          rw [pushFirstMatch_matchesAt]
          split
          · exfalso
            rename_i hsome
            have h1 := firstIdxB_comp GroupState.group
              (fun gr => groupMatcherB gr (collapseImport false x)) gs
            rw [h1, hmap] at hsome
            obtain ⟨k, hk, hkle⟩ := firstIdxB_le_of_true
              (fun g => groupMatcherB g (collapseImport false x)) dummyGroup hi (hmat _)
            rw [hsome] at hk
            have : j' = k := Option.some.inj hk
            omega
          · exact hinv j' hj'
  intro j hj
  exact key stmts (initGroups cfg) [] (initGroups_group_map cfg)
    (fun j' _ => initGroups_matchesAt cfg j') j hj

/-- Witness for C10 at a concrete input. -/
theorem catch_all_starves_later_groups_witness :
    (∀ line, groupMatcherB (cfgOther.groups.getD 0 dummyGroup) line = true) ∧
    ∀ j, 0 < j → matchesAt (assignedGroups [reactImport] cfgOther) j = [] :=
  catch_all_starves_later_groups [reactImport] cfgOther 0 (by decide) (by decide)

/-! ## Indent detector -/

theorem jsGcdF_eq_gcd : ∀ (fuel a b : Nat), b < fuel → jsGcdF fuel a b = Nat.gcd a b := by
  intro fuel
  induction fuel with
  | zero => intro a b h; omega
  | succ f ih =>
    intro a b h
    rw [jsGcdF]
    by_cases hb : b = 0
    · subst hb
      simp
    · rw [if_neg hb, ih b (a % b) (by
        have := Nat.mod_lt a (Nat.pos_of_ne_zero hb)
        omega)]
      rw [Nat.gcd_comm b (a % b), ← Nat.gcd_rec b a, Nat.gcd_comm b a]

theorem jsGcd_eq_gcd (a b : Nat) : jsGcd a b = Nat.gcd a b :=
  jsGcdF_eq_gcd (b + 1) a b (Nat.lt_succ_self b)

theorem foldl_gcd_one (l : List Nat) : l.foldl Nat.gcd 1 = 1 := by
  induction l with
  | nil => rfl
  | cons x xs ih => simpa [Nat.gcd_one_left]

theorem gcdLoop_eq_foldl (l : List Nat) : ∀ acc, gcdLoop acc l = l.foldl Nat.gcd acc := by
  induction l with
  | nil => intro acc; rfl
  | cons s rest ih =>
    intro acc
    rw [gcdLoop, List.foldl_cons]
    simp only [jsGcd_eq_gcd]
    split
    · rename_i h1
      rw [h1, foldl_gcd_one]
    · exact ih _

/-- C8 (confirmed).  `detectIndentStyle` answers `tabs` exactly when the
tab-indented non-blank lines outnumber the space-indented ones, and otherwise
answers `spaces` with the size given by the specification's formula
(`specIndentSize` over the observed, ≤ 8, space-indentation run lengths). -/
theorem detectIndentStyle_matches_spec (code : Str) :
    ((detectIndentStyle code).type = "tabs" ↔
      spaceLineCount code < tabLineCount code) ∧
    (¬ spaceLineCount code < tabLineCount code →
      detectIndentStyle code = ⟨"spaces", specIndentSize (observedSpaceSizes code)⟩) := by
  by_cases h : (indentScanOf code).spaceCount < (indentScanOf code).tabCount
  · have hd : detectIndentStyle code = ⟨"tabs", 1⟩ := by
      simp only [detectIndentStyle]
      rw [if_pos h]
    refine ⟨?_, fun hc => absurd h hc⟩
    rw [hd]
    exact ⟨fun _ => h, fun _ => rfl⟩
  · have hd : detectIndentStyle code =
        ⟨"spaces", specIndentSize (observedSpaceSizes code)⟩ := by
      simp only [detectIndentStyle]
      rw [if_neg h, specIndentSize.eq_def, observedSpaceSizes]
      cases (indentScanOf code).spaceSizes with
      | nil => rfl
      | cons s0 rest => simp [gcdLoop_eq_foldl]
    refine ⟨?_, fun _ => hd⟩
    rw [hd]
    exact ⟨fun hc => absurd (show ("spaces" : String) = "tabs" from hc) (by decide),
      fun hlt => absurd hlt h⟩

/-! ## Block content: concrete evaluations -/

/-- C1 (code bug).  Block formatting is not idempotent: re-formatting the
already-formatted output of `formatBlockContent` drops the blank separator
line that the first pass inserted before the expanded method (the expanded
`save (` / `): void;` lines are no longer recognized as a method on the
second pass), so the canonical output is not a fixed point. -/
theorem formatBlockContent_not_idempotent :
    formatBlockContent idemLines [] cfg4 =
      ["    name : string;".toList, [], "    save (".toList, "    ): void;".toList] ∧
    formatBlockContent (formatBlockContent idemLines [] cfg4) [] cfg4 ≠
      formatBlockContent idemLines [] cfg4 := by
  decide

/-- C6 (code bug).  With method expansion enabled, a call-signature property
whose parameter list contains nested parentheses is classified as a method
but emitted as a single line (the parameter regex `\(([^)]*)\)` of
`formatMethodSignature` cannot cross the inner parentheses), so its output
neither spans more than one line nor ends with a `): <returnType>;` line. -/
theorem method_expansion_fails_on_nested_parens :
    cfg4.EXPAND_METHODS = true ∧
    isMethodProp [nestedParenMethodLine] = true ∧
    formatBlockContent [nestedParenMethodLine] [] cfg4 =
      ["    onClick (cb: (x: string) => void): void;".toList] ∧
    (formatBlockContent [nestedParenMethodLine] [] cfg4).length = 1 := by
  decide

/-- C7 (code bug).  A property inside a single-line block that does not parse
is silently dropped rather than preserved: the text `123` occurs in the
input line but in no output line of `formatSingleLineBlock`. -/
theorem single_line_block_drops_text :
    formatSingleLineBlock slbBadLine [] cfg4 =
      ["interface X \x7b".toList, "    a   : string;".toList, "\x7d".toList] ∧
    listIncludes slbBadLine ("123".toList) = true ∧
    (∀ l ∈ formatSingleLineBlock slbBadLine [] cfg4,
      listIncludes l ("123".toList) = false) := by
  decide

/-- C4 counterexample: two sibling plain properties both match the
key/optional/colon pattern, but the generic key `b<T>` is invisible to the
alignment pattern, so the two first colons land in different columns. -/
theorem alignment_breaks_on_generic_key :
    (propMatch (jsTrim "    a: X;".toList)).isSome = true ∧
    (propMatch (jsTrim "    b<T>: Y;".toList)).isSome = true ∧
    isMethodProp ["    a: X;".toList] = false ∧
    isMethodProp ["    b<T>: Y;".toList] = false ∧
    formatBlockContent alignCexLines [] cfg4 =
      ["    a : X;".toList, "    b<T> : Y;".toList] ∧
    firstColonIdx ("    a : X;".toList) = some 6 ∧
    firstColonIdx ("    b<T> : Y;".toList) = some 9 := by
  decide

/-! ## Character classes and prefix facts -/

theorem ws_cases {c : Char} (h : jsWsChar c = true) :
    c = ' ' ∨ c = '\t' ∨ c = '\n' ∨ c = '\r' ∨ c = '\x0b' ∨ c = '\x0c' ∨
    c = nbspChar ∨ c = bomChar := by
  simp only [jsWsChar, Bool.or_eq_true, decide_eq_true_eq] at h
  tauto

theorem word_not_ws {c : Char} (h : isWordDollar c = true) : jsWsChar c = false := by
  by_contra hc
  have hw : jsWsChar c = true := by
    cases hws : jsWsChar c
    · exact absurd hws hc
    · rfl
  rcases ws_cases hw with h1 | h1 | h1 | h1 | h1 | h1 | h1 | h1 <;>
    (subst h1; revert h; decide)

theorem ws_ne_colon {c : Char} (h : jsWsChar c = true) : c ≠ ':' := by
  intro hc
  subst hc
  revert h
  decide

theorem word_ne_colon {c : Char} (h : isWordDollar c = true) : c ≠ ':' := by
  intro hc
  subst hc
  revert h
  decide

theorem ws_ne_brace {c : Char} (h : jsWsChar c = true) : c ≠ '{' := by
  intro hc
  subst hc
  revert h
  decide

theorem word_ne_brace {c : Char} (h : isWordDollar c = true) : c ≠ '{' := by
  intro hc
  subst hc
  revert h
  decide

theorem takeWhile_append_all {p : Char → Bool} {a : Str} (b : Str)
    (h : ∀ x ∈ a, p x = true) :
    (a ++ b).takeWhile p = a ++ b.takeWhile p := by
  induction a with
  | nil => rfl
  | cons x xs ih =>
    have hx : p x = true := h x (List.mem_cons_self _ _)
    simp only [List.cons_append, List.takeWhile_cons, hx, if_true]
    rw [ih (fun y hy => h y (List.mem_cons_of_mem _ hy))]

theorem dropWhile_append_all {p : Char → Bool} {a : Str} (b : Str)
    (h : ∀ x ∈ a, p x = true) :
    (a ++ b).dropWhile p = b.dropWhile p := by
  induction a with
  | nil => rfl
  | cons x xs ih =>
    have hx : p x = true := h x (List.mem_cons_self _ _)
    simp only [List.cons_append, List.dropWhile_cons, hx, if_true]
    exact ih (fun y hy => h y (List.mem_cons_of_mem _ hy))

theorem takeWhile_cons_stop {p : Char → Bool} {c : Char} (t : Str)
    (h : p c = false) : (c :: t).takeWhile p = [] := by
  simp [List.takeWhile_cons, h]

theorem dropWhile_cons_stop {p : Char → Bool} {c : Char} (t : Str)
    (h : p c = false) : (c :: t).dropWhile p = c :: t := by
  simp [List.dropWhile_cons, h]

theorem idxOfAux_append_not {c : Char} {a : Str} (b : Str)
    (h : ∀ x ∈ a, x ≠ c) :
    ∀ i, idxOfAux c (a ++ c :: b) i = some (i + a.length) := by
  induction a with
  | nil => intro i; simp [idxOfAux]
  | cons x xs ih =>
    intro i
    have hx : ¬ x = c := h x (List.mem_cons_self _ _)
    rw [List.cons_append, idxOfAux, if_neg hx,
      ih (fun y hy => h y (List.mem_cons_of_mem _ hy)) (i + 1), List.length_cons]
    exact congrArg some (by omega)

theorem idxOf_append_not {c : Char} {a : Str} (b : Str)
    (h : ∀ x ∈ a, x ≠ c) : idxOf (a ++ c :: b) c = some a.length := by
  have := idxOfAux_append_not b h 0
  simpa [idxOf] using this

theorem idxOfAux_isSome_of_mem {c : Char} :
    ∀ (s : Str) (i : Nat), c ∈ s → (idxOfAux c s i).isSome = true := by
  intro s
  induction s with
  | nil => intro i h; exact absurd h (List.not_mem_nil c)
  | cons x xs ih =>
    intro i h
    simp only [idxOfAux]
    split
    · rfl
    · rcases List.mem_cons.mp h with h1 | h1
      · exact absurd h1.symm (by assumption)
      · exact ih (i + 1) h1

/-! ## lastIdxOf -/

theorem lastIdxOfAux_some_best {c : Char} :
    ∀ (s : Str) (i m : Nat), ∃ k, lastIdxOfAux c s i (some m) = some k := by
  intro s
  induction s with
  | nil => intro i m; exact ⟨m, rfl⟩
  | cons x xs ih =>
    intro i m
    simp only [lastIdxOfAux]
    split
    · exact ih (i + 1) i
    · exact ih (i + 1) m

theorem lastIdxOfAux_le {c : Char} :
    ∀ (s : Str) (i m k : Nat), m ≤ i →
      lastIdxOfAux c s i (some m) = some k → m ≤ k := by
  intro s
  induction s with
  | nil =>
    intro i m k _ h
    cases h
    exact Nat.le_refl m
  | cons x xs ih =>
    intro i m k hmi h
    simp only [lastIdxOfAux] at h
    split at h
    · exact Nat.le_trans hmi (ih (i + 1) i k (Nat.le_succ i) h)
    · exact ih (i + 1) m k (Nat.le_succ_of_le hmi) h

theorem lastIdxOfAux_ge {c : Char} (d : Char) :
    ∀ (s : Str) (i : Nat) (best : Option Nat) (k : Nat),
      lastIdxOfAux c s i best = some k →
      ∀ j, j < s.length → s.getD j d = c → i + j ≤ k := by
  intro s
  induction s with
  | nil => intro i best k _ j hj; exact absurd hj (by simp)
  | cons x xs ih =>
    intro i best k h j hj hocc
    simp only [lastIdxOfAux] at h
    cases j with
    | zero =>
      rw [List.getD_cons_zero] at hocc
      rw [if_pos hocc] at h
      have := lastIdxOfAux_le xs (i + 1) i k (Nat.le_succ i) h
      omega
    | succ j' =>
      rw [List.getD_cons_succ] at hocc
      have := ih (i + 1) _ k h j' (Nat.lt_of_succ_lt_succ hj) hocc
      omega

theorem lastIdxOfAux_isSome {c : Char} (d : Char) :
    ∀ (s : Str) (i : Nat) (best : Option Nat) (j : Nat),
      j < s.length → s.getD j d = c →
      ∃ k, lastIdxOfAux c s i best = some k := by
  intro s
  induction s with
  | nil => intro i best j hj; exact absurd hj (by simp)
  | cons x xs ih =>
    intro i best j hj hocc
    simp only [lastIdxOfAux]
    cases j with
    | zero =>
      rw [List.getD_cons_zero] at hocc
      rw [if_pos hocc]
      exact lastIdxOfAux_some_best xs (i + 1) i
    | succ j' =>
      rw [List.getD_cons_succ] at hocc
      exact ih (i + 1) _ j' (Nat.lt_of_succ_lt_succ hj) hocc

theorem lastIdxOf_ge {c d : Char} {s : Str} {k : Nat}
    (h : lastIdxOf s c = some k) :
    ∀ j, j < s.length → s.getD j d = c → j ≤ k := by
  intro j hj hocc
  have := lastIdxOfAux_ge d s 0 none k h j hj hocc
  omega

theorem lastIdxOf_isSome {c d : Char} {s : Str} {j : Nat}
    (hj : j < s.length) (hocc : s.getD j d = c) :
    ∃ k, lastIdxOf s c = some k :=
  lastIdxOfAux_isSome d s 0 none j hj hocc

/-! ## alignScan -/

theorem alignScan_fst_mono : ∀ (props : List (List Str)) (mk : Nat) (ho : Bool),
    mk ≤ (alignScan props mk ho).1 := by
  intro props
  induction props with
  | nil => intro mk ho; exact Nat.le_refl mk
  | cons p rest ih =>
    intro mk ho
    simp only [alignScan]
    split
    · exact ih mk ho
    · split
      · exact Nat.le_trans (Nat.le_max_left _ _) (ih _ _)
      · exact ih mk ho

theorem alignScan_fst_ge {props : List (List Str)} {p : List Str}
    (hp : p ∈ props) {key : Str} {o : Bool}
    (hnc : ¬ (leadsWith ("//".toList) (jsTrim (p.headD [])) = true ∨
      leadsWith ("/*".toList) (jsTrim (p.headD [])) = true))
    (hm : alignMatch (jsTrim (p.headD [])) = some (key, o)) :
    ∀ (mk : Nat) (ho : Bool), key.length ≤ (alignScan props mk ho).1 := by
  induction props with
  | nil => exact absurd hp (List.not_mem_nil p)
  | cons q rest ih =>
    intro mk ho
    simp only [alignScan]
    rcases List.mem_cons.mp hp with hq | hq
    · subst hq
      rw [if_neg hnc, hm]
      exact Nat.le_trans (Nat.le_trans (Nat.le_max_right mk key.length)
        (Nat.le_refl _)) (alignScan_fst_mono rest _ _)
    · split
      · exact ih hq _ _
      · split
        · exact ih hq _ _
        · exact ih hq _ _

/-! ## Segment decomposition of the block formatter -/

theorem delimitScan_mem_ne_nil :
    ∀ (lines cur : List Str) (b p : Int) (props : List (List Str)),
      (∀ q ∈ props, q ≠ []) →
      ∀ q ∈ delimitScan lines cur b p props, q ≠ [] := by
  intro lines
  induction lines with
  | nil =>
    intro cur b p props hp q hq
    simp only [delimitScan] at hq
    split at hq
    · exact hp q hq
    · rcases List.mem_append.mp hq with h | h
      · exact hp q h
      · simp only [List.mem_singleton] at h
        subst h
        assumption
  | cons l rest ih =>
    intro cur b p props hp q hq
    simp only [delimitScan] at hq
    split at hq
    · exact ih cur b p props hp q hq
    · split at hq
      · refine ih [] _ _ _ ?_ q hq
        intro q' hq'
        rcases List.mem_append.mp hq' with h | h
        · exact hp q' h
        · simp only [List.mem_singleton] at h
          subst h
          exact List.append_ne_nil_of_right_ne_nil cur (List.cons_ne_nil l [])
      · refine ih _ _ _ props hp q hq

theorem blockProps_ne_nil {lines : List Str} :
    ∀ q ∈ blockProps lines, q ≠ [] :=
  delimitScan_mem_ne_nil (expandLines lines) [] 0 0 []
    (fun q hq => absurd hq (List.not_mem_nil q))

/-! ## Character classes and prefix facts for the head-line analysis -/

theorem ws_not_word {c : Char} (h : jsWsChar c = true) : isWordDollar c = false := by
  cases hw : isWordDollar c
  · rfl
  · rw [word_not_ws hw] at h
    cases h

theorem word_of_wordChar {c : Char} (h : jsWordChar c = true) : isWordDollar c = true := by
  simp [isWordDollar, h]

theorem ws_not_wordChar {c : Char} (h : jsWsChar c = true) : jsWordChar c = false := by
  cases hw : jsWordChar c
  · rfl
  · rw [word_not_ws (word_of_wordChar hw)] at h
    cases h

theorem ws_ne_langle {c : Char} (h : jsWsChar c = true) : c ≠ '<' := by
  intro hc
  subst hc
  revert h
  decide

theorem word_ne_lbrack {c : Char} (h : isWordDollar c = true) : c ≠ '[' := by
  intro hc
  subst hc
  revert h
  decide

theorem dollar_of_wordDollar {c : Char} (h1 : isWordDollar c = true)
    (h2 : jsWordChar c = false) : c = '$' := by
  simp only [isWordDollar, h2, Bool.false_or, decide_eq_true_eq] at h1
  exact h1

theorem leadsWith_append_self : ∀ (p t : Str), leadsWith p (p ++ t) = true := by
  intro p
  induction p with
  | nil => intro t; rfl
  | cons c cs ih => intro t; simp [leadsWith, ih]

theorem leadsWith_cons_nil (c : Char) (p : Str) : leadsWith (c :: p) [] = false := rfl

theorem dropWhile_head_false {p : Char → Bool} :
    ∀ {l t : Str} {c : Char}, l.dropWhile p = c :: t → p c = false := by
  intro l
  induction l with
  | nil => intro t c h; cases h
  | cons x xs ih =>
    intro t c h
    rw [List.dropWhile_cons] at h
    split at h
    · exact ih h
    · rename_i hx
      injection h with h1 h2
      subst h1
      cases hpc : p x
      · rfl
      · exact absurd hpc hx

theorem dropWhile_eq_drop_length {p : Char → Bool} :
    ∀ (l : Str), l.dropWhile p = l.drop (l.takeWhile p).length := by
  intro l
  induction l with
  | nil => rfl
  | cons x xs ih =>
    by_cases hx : p x = true
    · simp [List.dropWhile_cons, List.takeWhile_cons, hx, ih]
    · simp [List.dropWhile_cons, List.takeWhile_cons, hx]

theorem wordDollar_split : ∀ {l : Str}, (∀ c ∈ l, isWordDollar c = true) →
    (∀ c ∈ l, jsWordChar c = true) ∨
      ∃ w0 r, (∀ c ∈ w0, jsWordChar c = true) ∧ l = w0 ++ '$' :: r := by
  intro l
  induction l with
  | nil => intro _; exact Or.inl (by intro c hc; exact absurd hc (List.not_mem_nil c))
  | cons c t ih =>
    intro hall
    by_cases hc : jsWordChar c = true
    · rcases ih (fun x hx => hall x (List.mem_cons_of_mem _ hx)) with h | ⟨w0, r, hw0, heq⟩
      · refine Or.inl ?_
        intro x hx
        rcases List.mem_cons.mp hx with h1 | h1
        · subst h1; exact hc
        · exact h x h1
      · refine Or.inr ⟨c :: w0, r, ?_, by rw [heq, List.cons_append]⟩
        intro x hx
        rcases List.mem_cons.mp hx with h1 | h1
        · subst h1; exact hc
        · exact hw0 x h1
    · have hcd : c = '$' :=
        dollar_of_wordDollar (hall c (List.mem_cons_self _ _))
          (by simp only [Bool.not_eq_true] at hc; exact hc)
      exact Or.inr ⟨[], t, by intro x hx; exact absurd hx (List.not_mem_nil x), by rw [hcd]; rfl⟩

theorem goodKey_cons {key : Str} (h : goodKey key) :
    ∃ kc kt, key = kc :: kt ∧ isWordDollar kc = true := by
  rcases h with ⟨hne, hall⟩ | ⟨w, inner, hwne, hwall, _, _, hkeq⟩
  · cases hk : key with
    | nil => exact absurd hk hne
    | cons c t => exact ⟨c, t, rfl, hall c (hk ▸ List.mem_cons_self _ _)⟩
  · cases hw : w with
    | nil => exact absurd hw hwne
    | cons c t =>
      refine ⟨c, t ++ '<' :: (inner ++ ['>']), ?_, hwall c (hw ▸ List.mem_cons_self _ _)⟩
      rw [hkeq, hw, List.cons_append]

theorem goodKey_last_not_ws {key : Str} (h : goodKey key) :
    ∀ c, key.getLast? = some c → jsWsChar c = false := by
  intro c hc
  rcases h with ⟨_, hall⟩ | ⟨w, inner, _, _, _, _, hkeq⟩
  · exact word_not_ws (hall c (List.mem_of_getLast?_eq_some hc))
  · rw [hkeq] at hc
    have h1 : (w ++ '<' :: (inner ++ ['>'])).getLast? = some '>' := by
      have h2 : '<' :: (inner ++ ['>']) = ('<' :: inner) ++ ['>'] := by
        rw [List.cons_append]
      rw [h2, ← List.append_assoc]
      exact List.getLast?_concat _
    rw [h1] at hc
    cases hc
    decide

theorem jsTrim_ws_append {a : Str} {kc : Char} {kt : Str}
    (hws : ∀ c ∈ a, jsWsChar c = true)
    (hh : jsWsChar kc = false)
    (hl : ∀ c, (kc :: kt).getLast? = some c → jsWsChar c = false) :
    jsTrim (a ++ kc :: kt) = kc :: kt := by
  rw [jsTrim, dropWhile_append_all _ hws, dropWhile_cons_stop _ hh]
  cases hr : (kc :: kt).reverse with
  | nil => exact absurd hr (by simp)
  | cons y ys =>
    have hy : (kc :: kt).getLast? = some y := by
      rw [← List.head?_reverse, hr]
      rfl
    rw [dropWhile_cons_stop _ (hl y hy), ← hr, List.reverse_reverse]

theorem jsTrim_propInd_key {propInd key : Str}
    (hws : ∀ c ∈ propInd, jsWsChar c = true) (h : goodKey key) :
    jsTrim (propInd ++ key) = key := by
  obtain ⟨kc, kt, hkeq, hkc⟩ := goodKey_cons h
  subst hkeq
  exact jsTrim_ws_append hws (word_not_ws hkc) (goodKey_last_not_ws h)

/-! ## genericSuffix -/

theorem genericSuffix_none_of_head {c : Char} (t : Str) (hc : c ≠ '<') :
    genericSuffix (c :: t) = none := by
  simp only [genericSuffix]
  split
  · rename_i rest heq
    injection heq with h1 h2
    exact absurd h1 hc
  · rfl

theorem genericSuffix_of_shape {inner : Str} (X : Str) (hne : inner ≠ [])
    (hin : ∀ c ∈ inner, c ≠ '>') :
    genericSuffix ('<' :: (inner ++ '>' :: X)) = some ('<' :: (inner ++ ['>']), X) := by
  have ht : (inner ++ '>' :: X).takeWhile (fun c => decide (c ≠ '>')) = inner := by
    rw [takeWhile_append_all ('>' :: X) (fun c hc => by simpa using hin c hc),
        takeWhile_cons_stop X (by simp), List.append_nil]
  simp only [genericSuffix, ht, if_neg hne, List.drop_left]

theorem genericSuffix_inv {s gen r : Str} (h : genericSuffix s = some (gen, r)) :
    ∃ inner, inner ≠ [] ∧ (∀ c ∈ inner, c ≠ '>') ∧
      gen = '<' :: (inner ++ ['>']) ∧ s = gen ++ r := by
  cases s with
  | nil => cases h
  | cons c t =>
    by_cases hc : c = '<'
    · subst hc
      simp only [genericSuffix] at h
      split at h
      · cases h
      · rename_i hinne
        split at h
        · rename_i r' heq
          injection h with h2
          rw [Prod.mk.injEq] at h2
          obtain ⟨h3, h4⟩ := h2
          refine ⟨t.takeWhile (fun c => decide (c ≠ '>')), hinne, ?_, h3.symm, ?_⟩
          · intro x hx
            simpa using List.mem_takeWhile_imp hx
          · have hdw : t.dropWhile (fun c => decide (c ≠ '>')) = '>' :: r' := by
              rw [dropWhile_eq_drop_length]
              exact heq
            have hT : t = t.takeWhile (fun c => decide (c ≠ '>')) ++ '>' :: r' := by
              rw [← hdw, List.takeWhile_append_dropWhile]
            rw [← h3, ← h4]
            conv_lhs => rw [hT]
            simp [List.append_assoc]
        · cases h
    · rw [genericSuffix_none_of_head t hc] at h
      cases h

/-! ## fmsNameMatch on aligned first lines -/

theorem fmsNameMatch_dollar {propInd w0 : Str} (r : Str)
    (hpi : ∀ c ∈ propInd, jsWsChar c = true)
    (hw0 : ∀ c ∈ w0, jsWordChar c = true) :
    fmsNameMatch (propInd ++ (w0 ++ '$' :: r)) = none := by
  have hws1 : (propInd ++ (w0 ++ '$' :: r)).takeWhile (fun c => jsWsChar c) = propInd := by
    rw [takeWhile_append_all _ hpi]
    cases hw : w0 with
    | nil =>
      simp only [List.nil_append]
      rw [takeWhile_cons_stop _ (by decide), List.append_nil]
    | cons c cs =>
      rw [List.cons_append,
        takeWhile_cons_stop _ (word_not_ws (word_of_wordChar
          (hw0 c (hw ▸ List.mem_cons_self _ _)))), List.append_nil]
  have hwrun : (w0 ++ '$' :: r).takeWhile (fun c => jsWordChar c) = w0 := by
    rw [takeWhile_append_all _ hw0, takeWhile_cons_stop _ (by decide), List.append_nil]
  simp only [fmsNameMatch, hws1, List.drop_left, hwrun]
  by_cases hw : w0 = []
  · rw [if_pos hw]
  · rw [if_neg hw, genericSuffix_none_of_head r (by decide)]
    simp only [dropWhile_cons_stop r (by decide : jsWsChar '$' = false)]
    rfl

theorem fmsNameMatch_aligned {propInd key sp : Str} {d : Char} (tl : Str)
    (hpi : ∀ c ∈ propInd, jsWsChar c = true)
    (hsp : ∀ c ∈ sp, jsWsChar c = true)
    (hk : goodKey key)
    (hdw : jsWordChar d = false) (hdlt : d ≠ '<') (hdws : jsWsChar d = false) :
    fmsNameMatch (propInd ++ (key ++ (sp ++ d :: tl))) = none ∨
      (d = '(' ∧
        fmsNameMatch (propInd ++ (key ++ (sp ++ d :: tl))) = some (propInd ++ key)) := by
  rcases hk with ⟨hne, hall⟩ | ⟨w, inner, hwne, hwall, hinne, hinner, hkeq⟩
  · rcases wordDollar_split hall with hword | ⟨w0, r, hw0, hsplit⟩
    · obtain ⟨kc, kt, hkey⟩ : ∃ kc kt, key = kc :: kt := by
        cases hkk : key with
        | nil => exact absurd hkk hne
        | cons a b => exact ⟨a, b, rfl⟩
      have hkc : jsWordChar kc = true := hword kc (hkey ▸ List.mem_cons_self _ _)
      have hws1 : (propInd ++ (key ++ (sp ++ d :: tl))).takeWhile
          (fun c => jsWsChar c) = propInd := by
        rw [takeWhile_append_all _ hpi, hkey, List.cons_append,
            takeWhile_cons_stop _ (word_not_ws (word_of_wordChar hkc)), List.append_nil]
      have hwrun : (key ++ (sp ++ d :: tl)).takeWhile (fun c => jsWordChar c) = key := by
        rw [takeWhile_append_all _ hword]
        cases hsps : sp with
        | nil =>
          simp only [List.nil_append]
          rw [takeWhile_cons_stop _ hdw, List.append_nil]
        | cons c cs =>
          rw [List.cons_append,
            takeWhile_cons_stop _ (ws_not_wordChar (hsp c (hsps ▸ List.mem_cons_self _ _))),
            List.append_nil]
      have hgen : genericSuffix (sp ++ d :: tl) = none := by
        cases hsps : sp with
        | nil => exact genericSuffix_none_of_head tl hdlt
        | cons c cs =>
          exact genericSuffix_none_of_head _ (ws_ne_langle (hsp c (hsps ▸ List.mem_cons_self _ _)))
      have hdw2 : (sp ++ d :: tl).dropWhile (fun c => jsWsChar c) = d :: tl := by
        rw [dropWhile_append_all _ hsp, dropWhile_cons_stop _ hdws]
      simp only [fmsNameMatch, hws1, List.drop_left, hwrun, hgen, hdw2, if_neg hne]
      by_cases hd : d = '('
      · subst hd
        exact Or.inr ⟨rfl, rfl⟩
      · left
        split
        · rename_i heq
          injection heq with h1 _
          exact absurd h1 hd
        · rfl
    · left
      have hre : propInd ++ (key ++ (sp ++ d :: tl)) =
          propInd ++ (w0 ++ '$' :: (r ++ (sp ++ d :: tl))) := by
        rw [hsplit]
        simp [List.append_assoc]
      rw [hre]
      exact fmsNameMatch_dollar _ hpi hw0
  · rcases wordDollar_split hwall with hword | ⟨w0, r, hw0, hsplit⟩
    · obtain ⟨wc, wt, hww⟩ : ∃ wc wt, w = wc :: wt := by
        cases hw2 : w with
        | nil => exact absurd hw2 hwne
        | cons a b => exact ⟨a, b, rfl⟩
      have hre : propInd ++ (key ++ (sp ++ d :: tl)) =
          propInd ++ (w ++ '<' :: (inner ++ '>' :: (sp ++ d :: tl))) := by
        rw [hkeq]
        simp [List.append_assoc]
      rw [hre]
      have hws1 : (propInd ++ (w ++ '<' :: (inner ++ '>' :: (sp ++ d :: tl)))).takeWhile
          (fun c => jsWsChar c) = propInd := by
        rw [takeWhile_append_all _ hpi, hww, List.cons_append,
            takeWhile_cons_stop _ (word_not_ws (word_of_wordChar
              (hword wc (hww ▸ List.mem_cons_self _ _)))), List.append_nil]
      have hwrun : (w ++ '<' :: (inner ++ '>' :: (sp ++ d :: tl))).takeWhile
          (fun c => jsWordChar c) = w := by
        rw [takeWhile_append_all _ hword, takeWhile_cons_stop _ (by decide), List.append_nil]
      have hgen := genericSuffix_of_shape (sp ++ d :: tl) hinne hinner
      have hdw2 : (sp ++ d :: tl).dropWhile (fun c => jsWsChar c) = d :: tl := by
        rw [dropWhile_append_all _ hsp, dropWhile_cons_stop _ hdws]
      simp only [fmsNameMatch, hws1, List.drop_left, hwrun, hgen, hdw2, if_neg hwne]
      by_cases hd : d = '('
      · subst hd
        refine Or.inr ⟨rfl, ?_⟩
        rw [hkeq]
        simp [List.append_assoc]
      · left
        split
        · rename_i heq
          injection heq with h1 _
          exact absurd h1 hd
        · rfl
    · left
      have hre : propInd ++ (key ++ (sp ++ d :: tl)) =
          propInd ++ (w0 ++ '$' :: (r ++ ('<' :: (inner ++ ['>']) ++ (sp ++ d :: tl)))) := by
        rw [hkeq, hsplit]
        simp [List.append_assoc]
      rw [hre]
      exact fmsNameMatch_dollar _ hpi hw0

/-! ## Nonemptiness of rendered property lines -/

theorem formatMethodSignature_ne_nil (ml : List Str) (pInd afl : Str) (config : FmtConfig) :
    formatMethodSignature ml pInd afl config ≠ [] := by
  simp only [formatMethodSignature]
  split
  · exact List.cons_ne_nil _ _
  · split
    · exact List.cons_ne_nil _ _
    · split
      · exact List.cons_ne_nil _ _
      · split
        · split
          · exact List.append_ne_nil_of_right_ne_nil _ (List.cons_ne_nil _ _)
          · exact List.cons_ne_nil _ _
        · exact List.cons_ne_nil _ _

theorem renderPropLines_ne_nil (recur : List Str → Str → FmtConfig → List Str)
    (config : FmtConfig) (propInd : Str) (mk : Nat) (ho : Bool)
    {prop : List Str} (hp : prop ≠ []) :
    renderPropLines recur config propInd mk ho prop ≠ [] := by
  simp only [renderPropLines]
  split
  · simp [hp]
  · simp [hp]
  · exact formatMethodSignature_ne_nil _ _ _ _
  · split
    · exact List.cons_ne_nil _ _
    · split
      · exact formatMethodSignature_ne_nil _ _ _ _
      · simp

/-! ## Segment decomposition of the rendering fold -/

theorem renderFold_eq (recur : List Str → Str → FmtConfig → List Str)
    (config : FmtConfig) (propInd : Str) (mk : Nat) (ho : Bool) :
    ∀ (props : List (List Str)) (idx : Nat) (acc : List Str),
      (∀ q ∈ props, q ≠ []) → (0 < idx → acc ≠ []) →
      renderFold recur config propInd mk ho idx acc props =
        acc ++ ((List.enumFrom idx props).map (fun pi =>
          (if isMethodProp pi.2 = true ∧ pi.1 > 0 then [([] : Str)] else []) ++
            renderPropLines recur config propInd mk ho pi.2)).flatten := by
  intro props
  induction props with
  | nil =>
    intro idx acc _ _
    simp [renderFold]
  | cons p ps ih =>
    intro idx acc hne hacc
    have hp : p ≠ [] := hne p (List.mem_cons_self _ _)
    have hrpl : renderPropLines recur config propInd mk ho p ≠ [] :=
      renderPropLines_ne_nil recur config propInd mk ho hp
    simp only [renderFold]
    rw [ih (idx + 1) _ (fun q hq => hne q (List.mem_cons_of_mem _ hq))
        (fun _ => by
          intro hnil
          rcases List.append_eq_nil.mp hnil with ⟨_, h3⟩
          exact hrpl h3)]
    have hblank :
        (if isMethodProp p = true ∧ idx > 0 ∧ acc.length > 0 then [([] : Str)] else [])
        = (if isMethodProp p = true ∧ idx > 0 then [([] : Str)] else []) := by
      by_cases h1 : isMethodProp p = true
      · by_cases h2 : idx > 0
        · have h3 : acc ≠ [] := hacc h2
          have h4 : acc.length > 0 := List.length_pos.mpr h3
          simp [h1, h2, h4]
        · simp [h2]
      · simp [h1]
    rw [List.enumFrom_cons]
    simp [hblank, List.append_assoc]

theorem formatBlockContent_eq_segments (lines : List Str) (baseIndent : Str)
    (config : FmtConfig) (hU : isUnionContent lines = false) :
    formatBlockContent lines baseIndent config =
      (blockSegments ((lines.map List.length).sum) lines baseIndent config).flatten := by
  have henum : ∀ (l : List (List Str)), l.enum = List.enumFrom 0 l := fun l => rfl
  rw [formatBlockContent, charBound]
  simp only [formatBlockContentF]
  rw [if_neg (by simp [hU])]
  rw [renderFold_eq _ _ _ _ _ _ 0 []
    (show ∀ q ∈ delimitProps (expandLines lines), q ≠ [] from blockProps_ne_nil)
    (fun h => absurd h (Nat.lt_irrefl 0))]
  simp only [blockSegments, propSeg, blockMaxKey, blockHasOpt, blockProps, henum,
    List.nil_append]

theorem blockSegments_length (fuel : Nat) (lines : List Str) (b : Str) (c : FmtConfig) :
    (blockSegments fuel lines b c).length = (blockProps lines).length := by
  simp [blockSegments, List.enum]

theorem blockSegments_getD {fuel : Nat} {lines : List Str} {b : Str} {c : FmtConfig}
    {i : Nat} (hi : i < (blockProps lines).length) :
    (blockSegments fuel lines b c).getD i [] =
      propSeg fuel c (b ++ getIndentString c) (blockMaxKey lines) (blockHasOpt lines) i
        ((blockProps lines).getD i []) := by
  have henum : (blockProps lines).enum = List.enumFrom 0 (blockProps lines) := rfl
  simp only [blockSegments, henum, List.getD_eq_getElem?_getD, List.getElem?_map,
    List.getElem?_enumFrom, List.getElem?_eq_getElem hi]
  simp [List.getD_eq_getElem _ _ hi]

theorem segHead_propSeg {fuel : Nat} {config : FmtConfig} {propInd : Str} {mk : Nat}
    {ho : Bool} {idx : Nat} {prop : List Str} {h : Str} {rest : List Str}
    (hr : renderPropLines (formatBlockContentF fuel) config propInd mk ho prop = h :: rest)
    (hne : h ≠ []) :
    segHead (propSeg fuel config propInd mk ho idx prop) = some h := by
  have hie : h.isEmpty = false := by
    cases h with
    | nil => exact absurd rfl hne
    | cons a b => rfl
  simp only [propSeg, segHead, hr]
  split
  · simp [List.dropWhile_cons, hie]
  · simp [List.dropWhile_cons, hie]

/-! ## Inversion of the head-line classification -/

theorem takeWhile_prefix_decomp (p : Char → Bool) (l : Str) :
    l = l.takeWhile p ++ l.drop (l.takeWhile p).length := by
  rw [← dropWhile_eq_drop_length, List.takeWhile_append_dropWhile]

theorem closingParenScan_ge :
    ∀ (s : Str) (depth : Int) (i j : Nat), closingParenScan s depth i = some j → i ≤ j := by
  intro s
  induction s with
  | nil => intro depth i j h; cases h
  | cons c rest ih =>
    intro depth i j h
    simp only [closingParenScan] at h
    split at h
    · exact Nat.le_trans (Nat.le_succ i) (ih _ _ _ h)
    · split at h
      · split at h
        · injection h with h1; omega
        · exact Nat.le_trans (Nat.le_succ i) (ih _ _ _ h)
      · exact Nat.le_trans (Nat.le_succ i) (ih _ _ _ h)

theorem methodHeadMatch_inv {t name : Str} {n : Nat}
    (h : methodHeadMatch t = some (name, n)) :
    goodKey name ∧ 1 ≤ n ∧ ∃ r, t.drop (n - 1) = '(' :: r := by
  simp only [methodHeadMatch] at h
  split at h
  · cases h
  · rename_i hw
    have hwall : ∀ c ∈ t.takeWhile (fun c => isWordDollar c), isWordDollar c = true :=
      fun c hc => List.mem_takeWhile_imp hc
    have hdecomp := takeWhile_prefix_decomp (fun c => isWordDollar c) t
    cases hgs : genericSuffix (t.drop (t.takeWhile (fun c => isWordDollar c)).length) with
    | some gr =>
      obtain ⟨gen, r0⟩ := gr
      obtain ⟨inner, hinne, hinner, hgeneq, hseq⟩ := genericSuffix_inv hgs
      simp only [hgs] at h
      split at h
      · rename_i r2 heq2
        injection h with hpair
        rw [Prod.mk.injEq] at hpair
        obtain ⟨hname, hn⟩ := hpair
        simp only [List.length_append] at hn
        have hr0 : r0 = r0.takeWhile (fun c => jsWsChar c) ++ '(' :: r2 := by
          rw [← heq2]; exact takeWhile_prefix_decomp _ r0
        have ht : t = (t.takeWhile (fun c => isWordDollar c) ++ gen ++
            r0.takeWhile (fun c => jsWsChar c)) ++ '(' :: r2 := by
          conv_lhs => rw [hdecomp]
          rw [hseq]
          conv_lhs => rw [hr0]
          simp [List.append_assoc]
        refine ⟨?_, by omega, r2, ?_⟩
        · rw [← hname, hgeneq]
          exact Or.inr ⟨_, inner, hw, hwall, hinne, hinner, rfl⟩
        · rw [ht, List.drop_left' (by simp only [List.length_append]; omega)]
      · cases h
    | none =>
      simp only [hgs] at h
      split at h
      · rename_i r2 heq2
        injection h with hpair
        rw [Prod.mk.injEq] at hpair
        obtain ⟨hname, hn⟩ := hpair
        have hrest : t.drop (t.takeWhile (fun c => isWordDollar c)).length =
            (t.drop (t.takeWhile (fun c => isWordDollar c)).length).takeWhile
              (fun c => jsWsChar c) ++ '(' :: r2 := by
          rw [← heq2]; exact takeWhile_prefix_decomp _ _
        have ht : t = (t.takeWhile (fun c => isWordDollar c) ++
            (t.drop (t.takeWhile (fun c => isWordDollar c)).length).takeWhile
              (fun c => jsWsChar c)) ++ '(' :: r2 := by
          conv_lhs => rw [hdecomp]
          conv_lhs => rw [hrest]
          simp [List.append_assoc]
        refine ⟨?_, by omega, r2, ?_⟩
        · rw [← hname]
          exact Or.inl ⟨hw, hwall⟩
        · rw [ht, List.drop_left' (by simp only [List.length_append]; omega)]
      · cases h

theorem classify_method_params {prop : List Str} {key params value : Str}
    (hc : classifyProp prop = .methodP key params value) :
    goodKey key ∧ ∃ ps, params = '(' :: ps := by
  simp only [classifyProp] at hc
  split at hc
  · cases hc
  · split at hc
    · rename_i nm hm
      split at hc
      · rename_i cpi hcpi
        split at hc
        · rename_i v hv
          injection hc with h1 h2 h3
          obtain ⟨hgood, hn1, r, hdropr⟩ :=
            methodHeadMatch_inv (show methodHeadMatch (jsTrim (prop.headD [])) =
              some (nm.1, nm.2) by rw [hm])
          rw [hdropr] at hcpi
          simp only [closingParenScan, if_pos rfl] at hcpi
          have hge : nm.2 - 1 + 1 ≤ cpi := closingParenScan_ge _ _ _ _ hcpi
          have hK : nm.2 - 1 + (cpi + 1 - (nm.2 - 1)) = cpi + 1 := by omega
          have hmax : Nat.max (nm.2 - 1) (cpi + 1) = cpi + 1 := Nat.max_eq_right (by omega)
          have hmin : Nat.min (nm.2 - 1) (cpi + 1) = nm.2 - 1 := Nat.min_eq_left (by omega)
          have he : cpi + 1 - (nm.2 - 1) = (cpi + 1 - (nm.2 - 1) - 1) + 1 := by omega
          have hsub : jsSubstring (jsTrim (prop.headD [])) (nm.2 - 1) (cpi + 1) =
              '(' :: r.take (cpi + 1 - (nm.2 - 1) - 1) := by
            rw [jsSubstring, hmax, hmin]
            conv_lhs => rw [← hK, ← List.take_drop, hdropr, he, List.take_succ_cons]
          refine ⟨h1 ▸ hgood, ⟨r.take (cpi + 1 - (nm.2 - 1) - 1), ?_⟩⟩
          rw [← h2, hsub]
        · cases hc
      · cases hc
    · split at hc
      · cases hc
      · cases hc

theorem classify_plain_inv {prop : List Str} {key value : Str} {opt : Bool}
    (hc : classifyProp prop = .plainP key opt value) :
    ¬ (leadsWith ("//".toList) (jsTrim (prop.headD [])) = true ∨
       leadsWith ("/*".toList) (jsTrim (prop.headD [])) = true) ∧
    methodHeadMatch (jsTrim (prop.headD [])) = none ∧
    propMatch (jsTrim (prop.headD [])) = some (key, opt, value) := by
  simp only [classifyProp] at hc
  split at hc
  · cases hc
  · rename_i hguard
    split at hc
    · split at hc
      · split at hc
        · cases hc
        · cases hc
      · cases hc
    · rename_i hmh
      split at hc
      · rename_i kov hpm
        injection hc with h1 h2 h3
        refine ⟨hguard, hmh, hpm.trans ?_⟩
        rw [← h1, ← h2, ← h3]
      · cases hc

theorem propMatch_inv {t key value : Str} {opt : Bool}
    (h : propMatch t = some (key, opt, value)) : goodKey key := by
  simp only [propMatch] at h
  split at h
  · cases h
  · rename_i hw
    have hwall : ∀ c ∈ t.takeWhile (fun c => isWordDollar c), isWordDollar c = true :=
      fun c hc => List.mem_takeWhile_imp hc
    cases hgs : genericSuffix (t.drop (t.takeWhile (fun c => isWordDollar c)).length) with
    | some gr =>
      obtain ⟨gen, r0⟩ := gr
      obtain ⟨inner, hinne, hinner, hgeneq, _⟩ := genericSuffix_inv hgs
      rw [hgs] at h
      split at h
      · split at h
        · injection h with hpair
          rw [Prod.mk.injEq] at hpair
          rw [← hpair.1, hgeneq]
          exact Or.inr ⟨_, inner, hw, hwall, hinne, hinner, rfl⟩
        · cases h
      · cases h
    | none =>
      rw [hgs] at h
      split at h
      · split at h
        · injection h with hpair
          rw [Prod.mk.injEq] at hpair
          rw [← hpair.1]
          exact Or.inl ⟨hw, hwall⟩
        · cases h
      · cases h

/-! ## alignMatch on successful simple-key property matches -/

theorem optColonTail_qmark {s tt v : Str}
    (h1 : s.dropWhile (fun c => jsWsChar c) = '?' :: tt)
    (h2 : tt.dropWhile (fun c => jsWsChar c) = ':' :: v) :
    optColonTail s = some true := by
  simp only [optColonTail, h1, h2]

theorem optColonTail_colon {s v : Str}
    (h1 : s.dropWhile (fun c => jsWsChar c) = ':' :: v) :
    optColonTail s = some false := by
  simp only [optColonTail, h1]

theorem alignMatch_word {t : Str} {b : Bool}
    (hw : ¬ t.takeWhile (fun c => isWordDollar c) = [])
    (hlb : ∀ r, t ≠ '[' :: r)
    (hoct : optColonTail (t.drop (t.takeWhile (fun c => isWordDollar c)).length) = some b) :
    alignMatch t = some (t.takeWhile (fun c => isWordDollar c), b) := by
  simp only [alignMatch]
  split
  · rename_i hcond
    exact absurd hcond hw
  · rw [hoct]

theorem propMatch_simple_alignMatch {t key value : Str} {opt : Bool}
    (h : propMatch t = some (key, opt, value))
    (hsimple : ∀ c ∈ key, isWordDollar c = true) :
    alignMatch t = some (key, opt) := by
  simp only [propMatch] at h
  split at h
  · cases h
  · rename_i hw
    have hlb : ∀ r, t ≠ '[' :: r := by
      intro r heq
      apply hw
      rw [heq, takeWhile_cons_stop _ (by decide)]
    cases hgs : genericSuffix (t.drop (t.takeWhile (fun c => isWordDollar c)).length) with
    | some gr =>
      exfalso
      obtain ⟨gen, r0⟩ := gr
      obtain ⟨inner, _, _, hgeneq, _⟩ := genericSuffix_inv hgs
      simp only [hgs] at h
      split at h
      · split at h
        · injection h with hpair
          rw [Prod.mk.injEq] at hpair
          have hmem : '<' ∈ key := by
            rw [← hpair.1, hgeneq]
            exact List.mem_append.mpr (Or.inr (List.mem_cons_self _ _))
          have h2 := hsimple '<' hmem
          revert h2
          decide
        · cases h
      · cases h
    | none =>
      simp only [hgs] at h
      rcases hT : (t.drop (t.takeWhile (fun c => isWordDollar c)).length).dropWhile
          (fun c => jsWsChar c) with _ | ⟨c1, tt⟩
      · rw [hT] at h
        simp at h
      · rw [hT] at h
        by_cases hq : c1 = '?'
        · subst hq
          split at h
          · rename_i v heqv
            split at h
            · rename_i val hval
              injection h with hpair
              rw [Prod.mk.injEq] at hpair
              obtain ⟨hkeyeq, hrest2⟩ := hpair
              rw [Prod.mk.injEq] at hrest2
              have hopt : (true : Bool) = opt := hrest2.1
              have heqv2 : tt.dropWhile (fun c => jsWsChar c) = ':' :: v := heqv
              rw [← hkeyeq, ← hopt]
              exact alignMatch_word hw hlb (optColonTail_qmark hT heqv2)
            · cases h
          · cases h
        · split at h
          · rename_i v heqv
            split at heqv
            · rename_i t2 heq3
              injection heq3 with hc1 _
              exact absurd hc1 hq
            · have heqv2 : (c1 :: tt).dropWhile (fun c => jsWsChar c) = ':' :: v := heqv
              have hc1ws : jsWsChar c1 = false := dropWhile_head_false hT
              rw [dropWhile_cons_stop _ hc1ws] at heqv2
              injection heqv2 with hc1c htteq
              subst hc1c
              split at h
              · rename_i val hval
                injection h with hpair
                rw [Prod.mk.injEq] at hpair
                obtain ⟨hkeyeq, hrest2⟩ := hpair
                rw [Prod.mk.injEq] at hrest2
                have hopt : (false : Bool) = opt := hrest2.1
                rw [← hkeyeq, ← hopt]
                exact alignMatch_word hw hlb (optColonTail_colon hT)
              · cases h
          · cases h

/-! ## Head lines of rendered properties -/

theorem formatMethodSignature_head (ml : List Str) (pInd afl : Str) (config : FmtConfig) :
    (∃ rest, formatMethodSignature ml pInd afl config = afl :: rest) ∨
    (∃ x rest, fmsNameMatch afl = some x ∧
      formatMethodSignature ml pInd afl config =
        (pInd ++ jsTrim x ++ (" (".toList)) :: rest) := by
  simp only [formatMethodSignature]
  split
  · exact Or.inl ⟨_, rfl⟩
  · split
    · exact Or.inl ⟨[], rfl⟩
    · rename_i x hx
      split
      · exact Or.inl ⟨[], rfl⟩
      · split
        · split
          · exact Or.inr ⟨x, _, hx, List.cons_append _ _ _⟩
          · exact Or.inl ⟨[], rfl⟩
        · exact Or.inr ⟨x, _, hx, rfl⟩

theorem lastIdxOfAux_mem {c : Char} :
    ∀ (s : Str) (i k : Nat), lastIdxOfAux c s i none = some k → c ∈ s := by
  intro s
  induction s with
  | nil => intro i k h; cases h
  | cons x xs ih =>
    intro i k h
    simp only [lastIdxOfAux] at h
    by_cases hx : x = c
    · exact List.mem_cons.mpr (Or.inl hx.symm)
    · rw [if_neg hx] at h
      exact List.mem_cons.mpr (Or.inr (ih (i + 1) k h))

theorem lastIdxOf_mem {c : Char} {s : Str} {k : Nat}
    (h : lastIdxOf s c = some k) : c ∈ s :=
  lastIdxOfAux_mem s 0 k h

theorem getD_append_offset (a : Str) (b : Str) (j : Nat) (d : Char) :
    (a ++ b).getD (a.length + j) d = b.getD j d := by
  induction a with
  | nil => simp
  | cons x xs ih =>
    simp only [List.cons_append, List.length_cons]
    have he : xs.length + 1 + j = (xs.length + j) + 1 := by omega
    rw [he, List.getD_cons_succ, ih]

theorem fms_plain_none (propInd key : Str) (mk : Nat) (ho opt : Bool) (value : Str)
    (hws : ∀ c ∈ propInd, jsWsChar c = true) (hk : goodKey key) :
    fmsNameMatch (propInd ++ padSpaces key mk ++
      (if ho = true then (if opt = true then (" ?".toList) else ("  ".toList)) else []) ++
      (" : ".toList) ++ value) = none := by
  have hrepws : ∀ c ∈ List.replicate (mk - key.length) ' ', jsWsChar c = true := by
    intro c hcm
    rw [List.eq_of_mem_replicate hcm]
    decide
  have hq : (" ?".toList : Str) = [' ', '?'] := rfl
  have hb2 : ("  ".toList : Str) = [' ', ' '] := rfl
  have hcol : (" : ".toList : Str) = [' ', ':', ' '] := rfl
  have hspws1 : ∀ c ∈ List.replicate (mk - key.length) ' ' ++ [' '], jsWsChar c = true := by
    intro c hcm
    rcases List.mem_append.mp hcm with hh | hh
    · exact hrepws c hh
    · rw [List.mem_singleton.mp hh]; decide
  have hspws3 : ∀ c ∈ List.replicate (mk - key.length) ' ' ++ [' ', ' ', ' '],
      jsWsChar c = true := by
    intro c hcm
    rcases List.mem_append.mp hcm with hh | hh
    · exact hrepws c hh
    · simp only [List.mem_cons, List.not_mem_nil, or_false] at hh
      rcases hh with h1 | h1 | h1 <;> (rw [h1]; decide)
  by_cases h1 : ho = true
  · by_cases h2 : opt = true
    · have hal : propInd ++ padSpaces key mk ++
          (if ho = true then (if opt = true then (" ?".toList) else ("  ".toList)) else []) ++
          (" : ".toList) ++ value =
          propInd ++ (key ++ ((List.replicate (mk - key.length) ' ' ++ [' ']) ++
            '?' :: (' ' :: ':' :: ' ' :: value))) := by
        simp [h1, h2, padSpaces, hq, hcol, List.append_assoc]
      rw [hal]
      rcases fmsNameMatch_aligned (' ' :: ':' :: ' ' :: value) hws hspws1 hk
          (show jsWordChar '?' = false by decide) (show ('?' : Char) ≠ '<' by decide)
          (show jsWsChar '?' = false by decide) with hn | ⟨hd, _⟩
      · exact hn
      · exact absurd hd (by decide)
    · have hal : propInd ++ padSpaces key mk ++
          (if ho = true then (if opt = true then (" ?".toList) else ("  ".toList)) else []) ++
          (" : ".toList) ++ value =
          propInd ++ (key ++ ((List.replicate (mk - key.length) ' ' ++ [' ', ' ', ' ']) ++
            ':' :: (' ' :: value))) := by
        simp [h1, h2, padSpaces, hb2, hcol, List.append_assoc]
      rw [hal]
      rcases fmsNameMatch_aligned (' ' :: value) hws hspws3 hk
          (show jsWordChar ':' = false by decide) (show (':' : Char) ≠ '<' by decide)
          (show jsWsChar ':' = false by decide) with hn | ⟨hd, _⟩
      · exact hn
      · exact absurd hd (by decide)
  · have hal : propInd ++ padSpaces key mk ++
        (if ho = true then (if opt = true then (" ?".toList) else ("  ".toList)) else []) ++
        (" : ".toList) ++ value =
        propInd ++ (key ++ ((List.replicate (mk - key.length) ' ' ++ [' ']) ++
          ':' :: (' ' :: value))) := by
      simp [h1, padSpaces, hcol, List.append_assoc]
    rw [hal]
    rcases fmsNameMatch_aligned (' ' :: value) hws hspws1 hk
        (show jsWordChar ':' = false by decide) (show (':' : Char) ≠ '<' by decide)
        (show jsWsChar ':' = false by decide) with hn | ⟨hd, _⟩
    · exact hn
    · exact absurd hd (by decide)

theorem take_after_brace {A value : Str} {k : Nat}
    (hj : lastIdxOf (A ++ ':' :: ' ' :: value) '{' = some k)
    (hmem : '{' ∈ value) :
    (A ++ ':' :: ' ' :: value).take (k + 1) =
      A ++ ':' :: ((' ' :: value).take (k - A.length)) := by
  obtain ⟨jv, hjvlt, hjveq⟩ := List.getElem_of_mem hmem
  have hsplit : A ++ ':' :: ' ' :: value = (A ++ [':', ' ']) ++ value := by
    simp [List.append_assoc]
  have hocc : (A ++ ':' :: ' ' :: value).getD ((A ++ [':', ' ']).length + jv) ' ' = '{' := by
    rw [hsplit, getD_append_offset, List.getD_eq_getElem _ _ hjvlt]
    exact hjveq
  have hlen : (A ++ [':', ' ']).length + jv < (A ++ ':' :: ' ' :: value).length := by
    simp only [List.length_append, List.length_cons]
    simp
    omega
  have hge := lastIdxOf_ge hj _ hlen hocc
  rw [List.length_append] at hge
  have hAle : A.length ≤ k := by
    simp at hge
    omega
  rw [List.take_append_eq_append_take, List.take_all_of_le (by omega)]
  have he : k + 1 - A.length = (k - A.length) + 1 := by omega
  rw [he, List.take_succ_cons]

theorem renderPropLines_plain_head (recur : List Str → Str → FmtConfig → List Str)
    (config : FmtConfig) (propInd : Str) (mk : Nat) (ho : Bool)
    {prop : List Str} {key value : Str} {opt : Bool}
    (hws : ∀ c ∈ propInd, jsWsChar c = true)
    (hc : classifyProp prop = .plainP key opt value)
    (hk : goodKey key) :
    ∃ tl rest, renderPropLines recur config propInd mk ho prop =
      (propInd ++ padSpaces key mk ++
        ((if ho = true then (if opt = true then (" ?".toList) else ("  ".toList)) else []) ++
          [' ']) ++ ':' :: tl) :: rest := by
  have hq : (" ?".toList : Str) = [' ', '?'] := rfl
  have hb2 : ("  ".toList : Str) = [' ', ' '] := rfl
  have hcol : (" : ".toList : Str) = [' ', ':', ' '] := rfl
  have hafl : propInd ++ padSpaces key mk ++
      (if ho = true then (if opt = true then (" ?".toList) else ("  ".toList)) else []) ++
      (" : ".toList) ++ value =
      propInd ++ padSpaces key mk ++
        ((if ho = true then (if opt = true then (" ?".toList) else ("  ".toList)) else []) ++
          [' ']) ++ ':' :: (' ' :: value) := by
    by_cases h1 : ho = true
    · by_cases h2 : opt = true
      · simp [h1, h2, hq, hcol, List.append_assoc]
      · simp [h1, h2, hb2, hcol, List.append_assoc]
    · simp [h1, hcol, List.append_assoc]
  simp only [renderPropLines, hc]
  split
  · exact ⟨_, _, by rw [hafl]⟩
  · split
    · rcases formatMethodSignature_head prop propInd (propInd ++ padSpaces key mk ++
          (if ho = true then (if opt = true then (" ?".toList) else ("  ".toList)) else []) ++
          (" : ".toList) ++ value) config with ⟨rest, hr⟩ | ⟨x, rest, hx, hr⟩
      · exact ⟨_, _, by rw [hr, hafl]⟩
      · rw [fms_plain_none propInd key mk ho opt value hws hk] at hx
        cases hx
    · rename_i j hj
      have hmem : '{' ∈ value := lastIdxOf_mem hj
      split
      · rename_i k hk2
        rw [hafl] at hk2
        exact ⟨_, _, by rw [List.cons_append, hafl, take_after_brace hk2 hmem]⟩
      · exact ⟨_, _, by rw [List.cons_append, hafl]⟩

theorem renderPropLines_method_head (recur : List Str → Str → FmtConfig → List Str)
    (config : FmtConfig) (propInd : Str) (mk : Nat) (ho : Bool)
    {prop : List Str} {key params value : Str}
    (hws : ∀ c ∈ propInd, jsWsChar c = true)
    (hc : classifyProp prop = .methodP key params value) :
    ∃ h rest, renderPropLines recur config propInd mk ho prop = h :: rest ∧
      leadsWith (propInd ++ key) h = true := by
  obtain ⟨hgood, ps, hps⟩ := classify_method_params hc
  have hrepws : ∀ c ∈ List.replicate (mk - key.length) ' ', jsWsChar c = true := by
    intro c hcm
    rw [List.eq_of_mem_replicate hcm]
    decide
  have hspws1 : ∀ c ∈ List.replicate (mk - key.length) ' ' ++ [' '], jsWsChar c = true := by
    intro c hcm
    rcases List.mem_append.mp hcm with hh | hh
    · exact hrepws c hh
    · rw [List.mem_singleton.mp hh]; decide
  have hcs : (": ".toList : Str) = [':', ' '] := rfl
  simp only [renderPropLines, hc, hps]
  have hal : propInd ++ padSpaces key mk ++ (' ' :: '(' :: ps) ++ (": ".toList) ++ value =
      propInd ++ (key ++ ((List.replicate (mk - key.length) ' ' ++ [' ']) ++
        '(' :: (ps ++ (':' :: ' ' :: value)))) := by
    simp [padSpaces, hcs, List.append_assoc]
  rcases formatMethodSignature_head prop propInd
      (propInd ++ padSpaces key mk ++ (' ' :: '(' :: ps) ++ (": ".toList) ++ value) config
      with ⟨rest, hr⟩ | ⟨x, rest, hx, hr⟩
  · refine ⟨_, rest, hr, ?_⟩
    rw [hal, ← List.append_assoc]
    exact leadsWith_append_self _ _
  · rcases fmsNameMatch_aligned (ps ++ (':' :: ' ' :: value)) hws hspws1 hgood
        (show jsWordChar '(' = false by decide) (show ('(' : Char) ≠ '<' by decide)
        (show jsWsChar '(' = false by decide) with hn | ⟨_, hsome⟩
    · rw [hal, hn] at hx
      cases hx
    · rw [hal, hsome] at hx
      injection hx with hxe
      refine ⟨_, rest, hr, ?_⟩
      rw [← hxe, jsTrim_propInd_key hws hgood]
      exact leadsWith_append_self _ _

/-! ## Assembling the block-content claims -/

theorem getIndentString_ws (config : FmtConfig) :
    ∀ c ∈ getIndentString config, jsWsChar c = true := by
  intro c hcm
  rw [getIndentString] at hcm
  split at hcm
  · rw [List.mem_singleton.mp hcm]; decide
  · rw [List.eq_of_mem_replicate hcm]; decide

theorem leadsWith_ne_nil {p l : Str} (h : leadsWith p l = true) (hp : p ≠ []) : l ≠ [] := by
  intro hl
  subst hl
  cases hpp : p with
  | nil => exact hp hpp
  | cons c t =>
    rw [hpp] at h
    simp [leadsWith] at h

theorem propKey_inv {prop : List Str} {key : Str} (h : propKey prop = some key) :
    (∃ p v, classifyProp prop = .methodP key p v) ∨
    (∃ o v, classifyProp prop = .plainP key o v) := by
  simp only [propKey] at h
  split at h
  · rename_i k a b hcm
    injection h with h1
    rw [h1] at hcm
    exact Or.inl ⟨a, b, hcm⟩
  · rename_i k a b hcp
    injection h with h1
    rw [h1] at hcp
    exact Or.inr ⟨a, b, hcp⟩
  · cases h

theorem plainSimpleProp_inv {prop : List Str} (h : plainSimpleProp prop = true) :
    ∃ key o v, classifyProp prop = .plainP key o v ∧ ∀ c ∈ key, isWordDollar c = true := by
  simp only [plainSimpleProp] at h
  split at h
  · rename_i k o v hcp
    refine ⟨k, o, v, hcp, ?_⟩
    intro c hcm
    exact List.all_eq_true.mp h c hcm
  · cases h

/-- C5: for every non-union block (under a whitespace base indentation), the
output of `formatBlockContent` is exactly the concatenation of one segment per
delimited input property, in input order, with one segment per property; and
the first non-blank line of the segment of every recognized (method or plain)
property starts with the property indentation followed by that property's key.
Formatting therefore never reorders, drops, or duplicates properties. -/
theorem fbc_order_preservation (lines : List Str) (baseIndent : Str) (config : FmtConfig)
    (hU : isUnionContent lines = false)
    (hws : ∀ c ∈ baseIndent, jsWsChar c = true) :
    formatBlockContent lines baseIndent config =
      (blockSegments ((lines.map List.length).sum) lines baseIndent config).flatten ∧
    (blockSegments ((lines.map List.length).sum) lines baseIndent config).length =
      (blockProps lines).length ∧
    ∀ i, i < (blockProps lines).length → ∀ key,
      propKey ((blockProps lines).getD i []) = some key →
      ∃ h, segHead ((blockSegments ((lines.map List.length).sum) lines baseIndent
          config).getD i []) = some h ∧
        leadsWith ((baseIndent ++ getIndentString config) ++ key) h = true := by
  refine ⟨formatBlockContent_eq_segments lines baseIndent config hU,
    blockSegments_length _ _ _ _, ?_⟩
  intro i hi key hkey
  have hws2 : ∀ c ∈ baseIndent ++ getIndentString config, jsWsChar c = true := by
    intro c hcm
    rcases List.mem_append.mp hcm with hh | hh
    · exact hws c hh
    · exact getIndentString_ws config c hh
  rcases propKey_inv hkey with ⟨p2, v2, hcm⟩ | ⟨o2, v2, hcp⟩
  · obtain ⟨h, rest, hr, hlw⟩ := renderPropLines_method_head
      (formatBlockContentF ((lines.map List.length).sum)) config
      (baseIndent ++ getIndentString config) (blockMaxKey lines) (blockHasOpt lines)
      hws2 hcm
    refine ⟨h, ?_, hlw⟩
    rw [blockSegments_getD hi]
    refine segHead_propSeg hr ?_
    obtain ⟨hg, _⟩ := classify_method_params hcm
    obtain ⟨kc, kt, hkeq, _⟩ := goodKey_cons hg
    exact leadsWith_ne_nil hlw
      (by rw [hkeq]; exact List.append_ne_nil_of_right_ne_nil _ (List.cons_ne_nil kc kt))
  · obtain ⟨tl, rest, hr⟩ := renderPropLines_plain_head
      (formatBlockContentF ((lines.map List.length).sum)) config
      (baseIndent ++ getIndentString config) (blockMaxKey lines) (blockHasOpt lines)
      hws2 hcp (propMatch_inv (classify_plain_inv hcp).2.2)
    refine ⟨(baseIndent ++ getIndentString config) ++ padSpaces key (blockMaxKey lines) ++
        ((if blockHasOpt lines = true then
          (if o2 = true then (" ?".toList) else ("  ".toList)) else []) ++ [' ']) ++
        ':' :: tl, ?_, ?_⟩
    · rw [blockSegments_getD hi]
      exact segHead_propSeg hr
        (List.append_ne_nil_of_right_ne_nil _ (List.cons_ne_nil ':' tl))
    · have hre : (baseIndent ++ getIndentString config) ++
          padSpaces key (blockMaxKey lines) ++
          ((if blockHasOpt lines = true then
            (if o2 = true then (" ?".toList) else ("  ".toList)) else []) ++ [' ']) ++
          ':' :: tl =
          ((baseIndent ++ getIndentString config) ++ key) ++
            (List.replicate (blockMaxKey lines - key.length) ' ' ++
              (((if blockHasOpt lines = true then
                (if o2 = true then (" ?".toList) else ("  ".toList)) else []) ++ [' ']) ++
                ':' :: tl)) := by
        simp [padSpaces, List.append_assoc]
      rw [hre]
      exact leadsWith_append_self _ _

/-- C4 (amended): in every non-union block under whitespace base indentation,
every sibling plain (non-method) property whose key consists only of word or
`$` characters has the first `:` of its head output line at the same column,
namely indentation + maximum alignment key length + (2 if any sibling carries
the optional marker, else 0) + 1 — independent of whether the individual
sibling carries `?`; and that head line is a line of the actual output. The
unrestricted claim over all plain properties is refuted by
`alignment_breaks_on_generic_key`. -/
theorem plain_simple_alignment (lines : List Str) (baseIndent : Str) (config : FmtConfig)
    (hU : isUnionContent lines = false)
    (hws : ∀ c ∈ baseIndent, jsWsChar c = true) :
    ∀ i, i < (blockProps lines).length →
      plainSimpleProp ((blockProps lines).getD i []) = true →
      ∃ h, segHead ((blockSegments ((lines.map List.length).sum) lines baseIndent
          config).getD i []) = some h ∧
        h ∈ formatBlockContent lines baseIndent config ∧
        firstColonIdx h = some ((baseIndent ++ getIndentString config).length +
          blockMaxKey lines + (if blockHasOpt lines = true then 2 else 0) + 1) := by
  intro i hi hsp
  have hws2 : ∀ c ∈ baseIndent ++ getIndentString config, jsWsChar c = true := by
    intro c hcm
    rcases List.mem_append.mp hcm with hh | hh
    · exact hws c hh
    · exact getIndentString_ws config c hh
  obtain ⟨key, o2, v2, hcp, hsimple⟩ := plainSimpleProp_inv hsp
  obtain ⟨hguard, hmh, hpm⟩ := classify_plain_inv hcp
  have hkg : goodKey key := propMatch_inv hpm
  have halign := propMatch_simple_alignMatch hpm hsimple
  have hmem : (blockProps lines).getD i [] ∈ blockProps lines := by
    rw [List.getD_eq_getElem _ _ hi]
    exact List.getElem_mem _
  have hmk : key.length ≤ blockMaxKey lines :=
    alignScan_fst_ge hmem hguard halign 0 false
  obtain ⟨tl, rest, hr⟩ := renderPropLines_plain_head
    (formatBlockContentF ((lines.map List.length).sum)) config
    (baseIndent ++ getIndentString config) (blockMaxKey lines) (blockHasOpt lines)
    hws2 hcp hkg
  refine ⟨(baseIndent ++ getIndentString config) ++ padSpaces key (blockMaxKey lines) ++
      ((if blockHasOpt lines = true then
        (if o2 = true then (" ?".toList) else ("  ".toList)) else []) ++ [' ']) ++
      ':' :: tl, ?_, ?_, ?_⟩
  · rw [blockSegments_getD hi]
    exact segHead_propSeg hr
      (List.append_ne_nil_of_right_ne_nil _ (List.cons_ne_nil ':' tl))
  · rw [formatBlockContent_eq_segments lines baseIndent config hU]
    have hlen2 : i < (blockSegments ((lines.map List.length).sum) lines baseIndent
        config).length := by
      rw [blockSegments_length]
      exact hi
    refine List.mem_flatten.mpr ⟨(blockSegments ((lines.map List.length).sum) lines
      baseIndent config).getD i [], ?_, ?_⟩
    · rw [List.getD_eq_getElem _ _ hlen2]
      exact List.getElem_mem _
    · rw [blockSegments_getD hi]
      simp only [propSeg, hr]
      exact List.mem_append.mpr (Or.inr (List.mem_cons_self _ _))
  · have hAnc : ∀ x ∈ (baseIndent ++ getIndentString config) ++
        padSpaces key (blockMaxKey lines) ++
        ((if blockHasOpt lines = true then
          (if o2 = true then (" ?".toList) else ("  ".toList)) else []) ++ [' ']),
        x ≠ ':' := by
      intro x hx
      rcases List.mem_append.mp hx with hx1 | hx1
      · rcases List.mem_append.mp hx1 with hx2 | hx2
        · exact ws_ne_colon (hws2 x hx2)
        · rcases List.mem_append.mp hx2 with hx3 | hx3
          · exact word_ne_colon (hsimple x hx3)
          · rw [List.eq_of_mem_replicate hx3]; decide
      · rcases List.mem_append.mp hx1 with hx2 | hx2
        · by_cases h1 : blockHasOpt lines = true
          · by_cases h2 : o2 = true
            · simp only [h1, h2, if_true] at hx2
              rw [show (" ?".toList : Str) = [' ', '?'] from rfl] at hx2
              have hd : x = ' ' ∨ x = '?' := by simpa using hx2
              rcases hd with h3 | h3 <;> (rw [h3]; decide)
            · simp only [h1, h2, if_true, if_false] at hx2
              rw [show ("  ".toList : Str) = [' ', ' '] from rfl] at hx2
              have hd : x = ' ' ∨ x = ' ' := by simpa using hx2
              rcases hd with h3 | h3 <;> (rw [h3]; decide)
          · simp only [h1, if_false] at hx2
            exact absurd hx2 (List.not_mem_nil x)
        · rw [List.mem_singleton.mp hx2]; decide
    rw [firstColonIdx, idxOf_append_not tl hAnc]
    congr 1
    have hpadlen : (padSpaces key (blockMaxKey lines)).length = blockMaxKey lines := by
      rw [padSpaces, List.length_append, List.length_replicate]
      omega
    by_cases h1 : blockHasOpt lines = true
    · by_cases h2 : o2 = true
      · simp only [h1, h2, if_true, List.length_append, hpadlen]
        rw [show (" ?".toList : Str) = [' ', '?'] from rfl]
        simp
      · simp only [h1, h2, if_true, if_false, List.length_append, hpadlen]
        rw [show ("  ".toList : Str) = [' ', ' '] from rfl]
        simp
    · simp only [h1, if_false, List.length_append, hpadlen]
      simp

/-- Witness for `fbc_order_preservation`: on the two-property block
`idemLines`, the output is the concatenation of its two property segments in
order, and each property's head line carries its key. -/
theorem fbc_order_preservation_witness :
    isUnionContent idemLines = false ∧
    (∀ c ∈ ([] : Str), jsWsChar c = true) ∧
    (formatBlockContent idemLines [] cfg4 =
      (blockSegments ((idemLines.map List.length).sum) idemLines [] cfg4).flatten ∧
     (blockSegments ((idemLines.map List.length).sum) idemLines [] cfg4).length =
      (blockProps idemLines).length ∧
     ∀ i, i < (blockProps idemLines).length → ∀ key,
       propKey ((blockProps idemLines).getD i []) = some key →
       ∃ h, segHead ((blockSegments ((idemLines.map List.length).sum) idemLines []
           cfg4).getD i []) = some h ∧
         leadsWith ((([] : Str) ++ getIndentString cfg4) ++ key) h = true) :=
  ⟨by decide, by decide, fbc_order_preservation idemLines [] cfg4 (by decide) (by decide)⟩

/-- Witness for `plain_simple_alignment`: in the block `c4Lines` (a mandatory
and an optional plain property), both head lines have their first `:` at
column 8, even though only one sibling carries `?`. -/
theorem plain_simple_alignment_witness :
    isUnionContent c4Lines = false ∧
    plainSimpleProp ((blockProps c4Lines).getD 0 []) = true ∧
    plainSimpleProp ((blockProps c4Lines).getD 1 []) = true ∧
    (∃ h, segHead ((blockSegments ((c4Lines.map List.length).sum) c4Lines []
        cfg4).getD 0 []) = some h ∧
      h ∈ formatBlockContent c4Lines [] cfg4 ∧
      firstColonIdx h = some 8) ∧
    (∃ h, segHead ((blockSegments ((c4Lines.map List.length).sum) c4Lines []
        cfg4).getD 1 []) = some h ∧
      h ∈ formatBlockContent c4Lines [] cfg4 ∧
      firstColonIdx h = some 8) :=
  ⟨by decide, by decide, by decide,
    plain_simple_alignment c4Lines [] cfg4 (by decide) (by decide) 0 (by decide) (by decide),
    plain_simple_alignment c4Lines [] cfg4 (by decide) (by decide) 1 (by decide) (by decide)⟩
